import Mathlib

/-!
Shallow embedding of `src/nmapsim.js` (an nmap-style output simulator).

JS strings are modelled as `List Char`.  JS 32-bit integer operations
(`<<`, `&`, `>>>`) are modelled on `Int`/`Nat` with explicit wrapping
modulo `2^32`.  The end-anchored regexes of the source are modelled by
their languages: an end-anchored, start-unanchored regex matches a string
iff some suffix of the string is in the language of the regex body, and
`String.prototype.match` returns the longest such suffix (the leftmost
match position).  Each regex body is an alternation of concatenations of
character classes; its language is rendered below as an executable
recognizer on full strings.
-/

abbrev Str := List Char

/-- The character class `[0-9]`. -/
def isDigitCh (c : Char) : Bool := '0' ≤ c && c ≤ '9'

/-- `s.split(c)` for a single-character separator `c` (all `split` calls in the
source use single-character separators: `'.'`, `'-'`, `'/'`, `' '`). -/
def splitOnChar (c : Char) (s : Str) : List Str :=
  match s with
  | [] => [[]]
  | x :: xs =>
    match splitOnChar c xs with
    | [] => [[]]
    | h :: t => if x = c then [] :: h :: t else (x :: h) :: t

/-- The decimal digit character for `d < 10`. -/
def digitChar (d : Nat) : Char := Char.ofNat (48 + d)

/-- Decimal rendering of a natural number, with explicit fuel so that the
definition is structurally recursive (the fuel `n+1` always suffices). -/
def natToStrAux : Nat → Nat → Str
  | 0, _ => []
  | fuel + 1, n =>
    if n < 10 then [digitChar n]
    else natToStrAux fuel (n / 10) ++ [digitChar (n % 10)]

/-- JS number-to-string conversion for a nonnegative integer. -/
def natToStr (n : Nat) : Str := natToStrAux (n + 1) n

/-- JS number-to-string conversion for an integer. -/
def intToStr (n : Int) : Str :=
  if n < 0 then '-' :: natToStr n.natAbs else natToStr n.toNat

/-- JS `Number(s)` restricted to the strings it is applied to in the source:
digit strings (octets, prefix lengths, port numbers) and the empty string
(`Number("") = 0`). -/
def numberNat (s : Str) : Nat :=
  s.foldl (fun a c => a * 10 + (c.toNat - 48)) 0

/-- JS `parseInt(s, 10)`: parses the leading run of digits.  In the source it
is only applied to all-digit octet strings. -/
def parseIntNat (s : Str) : Nat := numberNat (s.takeWhile isDigitCh)

/-! ### 32-bit integer semantics -/

/-- `ToUint32`: the value of `n` as an unsigned 32-bit integer (what JS
`>>> 0` produces). -/
def uint32 (n : Int) : Nat := (n % 4294967296).toNat

/-- `ToInt32`: the value of `n` wrapped into the signed 32-bit range, as JS
bitwise operators do with their operands and results. -/
def toInt32 (n : Int) : Int :=
  let u := n % 4294967296
  if u < 2147483648 then u else u - 4294967296

/-- JS `a & b`: bitwise AND on the 32-bit representations, signed result. -/
def jsAnd32 (a b : Int) : Int :=
  toInt32 (Int.ofNat (Nat.land (uint32 a) (uint32 b)))

/-- JS `a << s`: 32-bit left shift (the shift count is taken mod 32),
signed result.  The power is computed in `Nat` and cast. -/
def jsShl32 (a : Int) (s : Nat) : Int := toInt32 (a * ((2 ^ (s % 32) : Nat) : Int))

/-!
### Helper functions of the source

`int2ip` renders an integer loop variable as a dotted quad.  In the source it
is `(ip>>>24) + '.' + (ip>>16 & 255) + '.' + (ip>>8 & 255) + '.' + (ip & 255)`;
on the unsigned 32-bit value `u` of `ip` these four fields are
`u / 2^24`, `u / 2^16 % 256`, `u / 2^8 % 256` and `u % 256`
(an arithmetic right shift followed by `& 255` extracts the same bits as the
unsigned shift as long as the shift count is at most 24).
-/

def int2ip (ip : Int) : Str :=
  let u := uint32 ip
  natToStr (u / 16777216) ++ '.' :: natToStr (u / 65536 % 256)
    ++ '.' :: natToStr (u / 256 % 256) ++ '.' :: natToStr (u % 256)

/-- `ip2int`: `ip.split('.').reduce((acc, oct) => (acc << 8) + parseInt(oct, 10), 0) >>> 0`. -/
def ip2int (ip : Str) : Nat :=
  uint32 ((splitOnChar '.' ip).foldl
    (fun acc oct => jsShl32 acc 8 + (parseIntNat oct : Int)) 0)

/-- `subnetMaskToNumber(mask)`: `(0xffffffff << (32 - Number(mask))) & 0xffffffff`. -/
def subnetMaskToNumber (mask : Str) : Int :=
  jsAnd32 (jsShl32 4294967295 (32 - numberNat mask)) 4294967295

/-!
### The four address grammars

The octet pattern of every regex in the source is
`25[0-5]|2[0-4][0-9]|1[0-9][0-9]|[1-9][0-9]|[0-9]`:
the decimal renderings, without leading zeros, of 0–255.
-/

/-- Full-string language of the octet pattern. -/
def isOctetStr (s : Str) : Bool :=
  match s with
  | [a] => isDigitCh a
  | [a, b] => ('1' ≤ a && a ≤ '9') && isDigitCh b
  | [a, b, c] =>
    (a = '2' && b = '5' && ('0' ≤ c && c ≤ '5')) ||
    (a = '2' && ('0' ≤ b && b ≤ '4') && isDigitCh c) ||
    (a = '1' && isDigitCh b && isDigitCh c)
  | _ => false

/-- Full-string language of the CIDR prefix-length pattern
`([4-9]|(3[0-2]?)|(2[0-9]?)|(1[0-9]?))`.  A one-character string matches via
`[4-9]` or via one of `3[0-2]?`, `2[0-9]?`, `1[0-9]?` with the optional second
digit absent — so the bare strings `"3"`, `"2"` and `"1"` match.  A
two-character string matches via one of the last three alternatives with the
optional digit present. -/
def isCidrPrefixStr (s : Str) : Bool :=
  match s with
  | [a] => ('4' ≤ a && a ≤ '9') || a = '3' || a = '2' || a = '1'
  | [a, b] =>
    (a = '3' && ('0' ≤ b && b ≤ '2')) ||
    (a = '2' && isDigitCh b) ||
    (a = '1' && isDigitCh b)
  | _ => false

/-- Full-string language of `(octet\.){3}octet` (a dotted quad).  Octets
contain no `'.'`, so membership is: splitting on `'.'` yields exactly four
octets. -/
def isQuadStr (s : Str) : Bool :=
  match splitOnChar '.' s with
  | [a, b, c, d] => isOctetStr a && isOctetStr b && isOctetStr c && isOctetStr d
  | _ => false

/-- Full-string language of the start-stop range body `quad\-quad` (quads
contain no `'-'`). -/
def isStartStopStr (s : Str) : Bool :=
  match splitOnChar '-' s with
  | [l, r] => isQuadStr l && isQuadStr r
  | _ => false

/-- Full-string language of `quad(\/prefix)?` — the second alternative of
`testAnyMatch` (quads and prefixes contain no `'/'`). -/
def isQuadOrCidrStr (s : Str) : Bool :=
  match splitOnChar '/' s with
  | [q] => isQuadStr q
  | [q, p] => isQuadStr q && isCidrPrefixStr p
  | _ => false

/-- Full-string language of the `testCIDR` body `quad(\/prefix)+`. -/
def isCidrTokStr (s : Str) : Bool :=
  match splitOnChar '/' s with
  | [] => false
  | [_] => false
  | q :: ps => isQuadStr q && ps.all isCidrPrefixStr

/-- Full-string language of one field of the per-octet range grammar:
`octet(\-octet)?`. -/
def isHyphenFieldStr (s : Str) : Bool :=
  match splitOnChar '-' s with
  | [a] => isOctetStr a
  | [a, b] => isOctetStr a && isOctetStr b
  | _ => false

/-- Full-string language of the per-octet range body
`(octet(\-octet)?\.){3}octet(\-octet)?` (fields contain no `'.'`). -/
def isHyphenTokStr (s : Str) : Bool :=
  match splitOnChar '.' s with
  | [a, b, c, d] =>
    isHyphenFieldStr a && isHyphenFieldStr b && isHyphenFieldStr c && isHyphenFieldStr d
  | _ => false

/-- Full-string language of the whole `testAnyMatch` body: the alternation of
the start-stop body, the `quad(\/prefix)?` body, and the per-octet body, each
end-anchored in the source. -/
def isAnyMatch (s : Str) : Bool :=
  isStartStopStr s || isQuadOrCidrStr s || isHyphenTokStr s

/-- `p.test(x)` for an end-anchored, start-unanchored regex with body
language `accept`: true iff some suffix of `x` is accepted. -/
def existsSuffix (accept : Str → Bool) : Str → Bool
  | [] => accept []
  | c :: cs => accept (c :: cs) || existsSuffix accept cs

/-- `testStartStop.test(x)`. -/
def testStartStop (x : Str) : Bool := existsSuffix isStartStopStr x

/-- `testCIDR.test(x)`. -/
def testCIDR (x : Str) : Bool := existsSuffix isCidrTokStr x

/-- `testNmapHyphenOrSingle.test(x)`. -/
def testNmapHyphenOrSingle (x : Str) : Bool := existsSuffix isHyphenTokStr x

/-- `testSingleIP.test(x)`: this regex is anchored at both ends (`^...$`), so
it tests the full string. -/
def testSingleIP (x : Str) : Bool := isQuadStr x

/-- `commandString.match(testAnyMatch)`, reduced to the match text
(`allAddresses[0]`): the longest suffix of the string in the language of the
(end-anchored) body, `none` when no suffix matches. -/
def jsMatchTail : Str → Option Str
  | [] => if isAnyMatch [] then some [] else none
  | c :: cs => if isAnyMatch (c :: cs) then some (c :: cs) else jsMatchTail cs

/-!  ### Token expansion (the body of the `while` loop of `ListIPAddresses`) -/

/-- `for (let i = s; i <= e; i++)`: the ascending list of loop-counter
values, empty when `e < s`. -/
def intRangeIncl (s e : Int) : List Int :=
  (List.range (e + 1 - s).toNat).map (fun k => s + Int.ofNat k)

/-- The start-stop branch: split the token on `'-'`, convert both sides with
`ip2int`, and push `int2ip(i)` for every `i` in the inclusive range. -/
def expandStartStop (tok : Str) : List Str :=
  let parts := splitOnChar '-' tok
  let startAddress := ip2int (parts.headD [])
  let endAddress := ip2int ((parts.drop 1).headD [])
  (intRangeIncl (startAddress : Int) (endAddress : Int)).map int2ip

/-- The CIDR branch: split on `'/'`, mask the base address with
`subnetMaskToNumber`, and enumerate `Math.pow(2, 32 - cidrSize)` addresses.
The loop bounds are the signed 32-bit values the source computes. -/
def expandCIDR (tok : Str) : List Str :=
  let parts := splitOnChar '/' tok
  let givenAddress := parts.headD []
  let cidrSize := (parts.drop 1).headD []
  let startAddress := jsAnd32 (ip2int givenAddress : Int) (subnetMaskToNumber cidrSize)
  let endAddress := (((2 ^ (32 - numberNat cidrSize) : Nat)) : Int) + startAddress - 1
  (intRangeIncl startAddress endAddress).map int2ip

/-- lodash `_.range(start, stop)` with integer arguments: when
`start < stop`, the ascending list `[start, ..., stop-1]`; otherwise the step
defaults to `-1` and the result is the descending list of length
`start - stop` beginning at `start`. -/
def lodashRange (start stop : Int) : List Int :=
  if start < stop then (List.range (stop - start).toNat).map (fun k => start + Int.ofNat k)
  else (List.range (start - stop).toNat).map (fun k => start - Int.ofNat k)

/-- One field of the per-octet branch: `_.range(f.split("-")[0],
Number(f.split("-")[1]) + 1)` when the field contains a hyphen, else
`[Number(f)]`. -/
def octetList (f : Str) : List Int :=
  if f.contains '-' then
    lodashRange (numberNat ((splitOnChar '-' f).headD []) : Int)
      ((numberNat (((splitOnChar '-' f).drop 1).headD []) : Int) + 1)
  else [(numberNat f : Int)]

/-- The per-octet (nmap hyphen) branch: the four nested `for ... of` loops
pushing `octetA + "." + octetB + "." + octetC + "." + octetD`. -/
def expandHyphen (tok : Str) : List Str :=
  let parts := splitOnChar '.' tok
  let octA := octetList (parts.headD [])
  let octB := octetList ((parts.drop 1).headD [])
  let octC := octetList ((parts.drop 2).headD [])
  let octD := octetList ((parts.drop 3).headD [])
  octA.flatMap fun a => octB.flatMap fun b => octC.flatMap fun c => octD.map fun d =>
    intToStr a ++ '.' :: intToStr b ++ '.' :: intToStr c ++ '.' :: intToStr d

/-- The `if / else if` dispatch inside the `while` loop, in source order.
When no branch fires nothing is pushed. -/
def processToken (tok : Str) : List Str :=
  if testStartStop tok then expandStartStop tok
  else if testCIDR tok then expandCIDR tok
  else if testSingleIP tok then [tok]
  else if testNmapHyphenOrSingle tok && !testSingleIP tok then expandHyphen tok
  else []

/-- JS `String.prototype.includes`: substring test, scanning left to right. -/
def jsIncludes (s sub : Str) : Bool :=
  match s with
  | [] => sub.isEmpty
  | c :: t => sub.isPrefixOf (c :: t) || jsIncludes t sub

/-- JS `s.replace(pat, "")` for a string pattern: remove the first (leftmost)
occurrence of `pat`; `s` unchanged when `pat` does not occur. -/
def replaceFirst (s pat : Str) : Str :=
  match s with
  | [] => []
  | c :: cs => if pat.isPrefixOf (c :: cs) then (c :: cs).drop pat.length
               else c :: replaceFirst cs pat

/-- JS `String.prototype.trim`: strip leading and trailing whitespace. -/
def jsTrim (s : Str) : Str :=
  ((s.dropWhile Char.isWhitespace).reverse.dropWhile Char.isWhitespace).reverse

/-- The `while (allAddresses != null)` loop of `ListIPAddresses`, with
explicit fuel.  Each iteration expands the matched trailing token, removes
the first occurrence of the matched text (`commandString.replace(...)`),
trims, and re-matches.  Fuel `length + 1` always suffices because each
iteration strictly shortens the string. -/
def listIPLoop : Nat → Str → List Str → List Str
  | 0, _, acc => acc
  | fuel + 1, cmd, acc =>
    match jsMatchTail cmd with
    | none => acc
    | some tok => listIPLoop fuel (jsTrim (replaceFirst cmd tok)) (acc ++ processToken tok)

/-- `ListIPAddresses(commandString)`. -/
def ListIPAddresses (cmd : Str) : List Str := listIPLoop (cmd.length + 1) cmd []

/-! ### The report synthesizer -/

/-- One row of the host dataset (all fields are strings, as produced by the
CSV conversion in the source). -/
structure HostRecord where
  IP : Str
  PortsOpen : Str
  PortsClosed : Str
  PortsFiltered : Str
  Latency : Str

def CRLF : Str := ['\r', '\n']

/-- Stable insertion of `x` after every entry with a strictly smaller
`Number` key: the building block of the stable sort below. -/
def sInsert (x : Str) : List Str → List Str
  | [] => [x]
  | y :: t => if numberNat y < numberNat x then y :: sInsert x t else x :: y :: t

/-- The sort `(a, b) => Number(a) - Number(b)`.  JavaScript `Array.sort`
with a comparator is stable, and a stable sort by a total key order is a
unique function of its input, so it is modeled by this structurally
recursive stable insertion sort (an element is placed before exactly the
later-input entries whose key is not smaller). -/
def stableSort : List Str → List Str
  | [] => []
  | x :: t => sInsert x (stableSort t)

/-- `allports`: `PortsFiltered + " " + PortsClosed + " " + PortsOpen`. -/
def allportsOf (m : HostRecord) : Str :=
  m.PortsFiltered ++ ' ' :: m.PortsClosed ++ ' ' :: m.PortsOpen

/-- `sortedports`: `allports.split(" ").sort((a, b) => Number(a) - Number(b))`. -/
def sortedportsOf (m : HostRecord) : List Str :=
  stableSort (splitOnChar ' ' (allportsOf m))

/-- One port output line: the port, `/tcp`, and the state resolved by the
`includes` chain of the source (substring containment against the raw
category strings, filtered first, then open, then closed). -/
def portLine (m : HostRecord) (w : Str) : Str :=
  w ++ ("/tcp  ").data ++
  (if jsIncludes m.PortsFiltered w then ("filtered ").data
   else if jsIncludes m.PortsOpen w then ("open ").data
   else if jsIncludes m.PortsClosed w then ("closed ").data
   else []) ++ CRLF

/-- Everything appended for one included host. -/
def hostBlock (pingScan : Bool) (m : HostRecord) : Str :=
  ("Nmap scan report for ").data ++ m.IP ++ CRLF ++
  ("Host it up (").data ++ m.Latency ++ ("s latency).").data ++ CRLF ++
  (if !pingScan then ("PORT         STATE    SERVICE").data ++ CRLF else []) ++
  ((sortedportsOf m).flatMap fun w =>
    if w ≠ [] then (if !pingScan then portLine m w else []) else []) ++
  (if !pingScan then CRLF else [])

/-- The inclusion test of the source:
`targetlist.includes(IP) && (PortsClosed != "" || PortsFiltered != "" || PortsOpen != "")`. -/
def includedB (targetlist : List Str) (m : HostRecord) : Bool :=
  targetlist.contains m.IP &&
    (!m.PortsClosed.isEmpty || !m.PortsFiltered.isEmpty || !m.PortsOpen.isEmpty)

/-- One iteration of the `for (let machine in data)` loop: state is
`(scannedaddresses, result)`. -/
def scanStep (pingScan : Bool) (targetlist : List Str) (st : Nat × Str) (m : HostRecord) :
    Nat × Str :=
  if includedB targetlist m then (st.1 + 1, st.2 ++ hostBlock pingScan m) else st

/-- `pingScan`: `commandString.includes(" -sn ") || commandString.includes(" -PE ")`. -/
def pingScanB (cmd : Str) : Bool :=
  jsIncludes cmd (" -sn ").data || jsIncludes cmd (" -PE ").data

def headerStr : Str := ("Starting Nmap 7.95 ( https://nmap.org )").data ++ CRLF

/-- The final trailer line. -/
def trailerStr (totaladdresses scannedaddresses : Nat) : Str :=
  ("Nmap done: ").data ++ natToStr totaladdresses ++ (" IP addresses (").data ++
  natToStr scannedaddresses ++ (" host up) scanned in 26.18 seconds").data ++ CRLF

/-- `createPortScanResults(data, commandString)`. -/
def createPortScanResults (data : List HostRecord) (commandString : Str) : Str :=
  let pingScan := pingScanB commandString
  let targetlist := ListIPAddresses commandString
  let totaladdresses := targetlist.length
  let st := data.foldl (scanStep pingScan targetlist) (0, headerStr)
  st.2 ++ trailerStr totaladdresses st.1

/-! ### Statement-side vocabulary (renderings used to quantify over tokens) -/

/-- Joining with a separator character; inverse of `splitOnChar`. -/
def joinParts (c : Char) : List Str → Str
  | [] => []
  | [p] => p
  | p :: ps => p ++ c :: joinParts c ps

/-- The dotted-quad rendering of four octet values. -/
def quadStr (A B C D : Nat) : Str :=
  natToStr A ++ '.' :: natToStr B ++ '.' :: natToStr C ++ '.' :: natToStr D

/-- A field of a per-octet range token, as described by the spec: either a
bare integer or a hyphen-joined range. -/
inductive SpecOctetField where
  | bare : Nat → SpecOctetField
  | rng : Nat → Nat → SpecOctetField

/-- The text of a field. -/
def SpecOctetField.text : SpecOctetField → Str
  | .bare n => natToStr n
  | .rng a b => natToStr a ++ '-' :: natToStr b

/-- Grammar-validity of a field together with the spec's reading of a range
as an ordered inclusive range. -/
def SpecOctetField.ok : SpecOctetField → Prop
  | .bare n => n ≤ 255
  | .rng a b => a ≤ 255 ∧ b ≤ 255 ∧ a ≤ b

instance (f : SpecOctetField) : Decidable f.ok := by
  cases f with
  | bare n => exact inferInstanceAs (Decidable (n ≤ 255))
  | rng a b => exact inferInstanceAs (Decidable (a ≤ 255 ∧ b ≤ 255 ∧ a ≤ b))

/-- The ascending per-field integer list of the spec. -/
def SpecOctetField.ascList : SpecOctetField → List Nat
  | .bare n => [n]
  | .rng a b => List.range' a (b + 1 - a)

/-- Whether the field is hyphenated. -/
def SpecOctetField.hyph : SpecOctetField → Bool
  | .bare _ => false
  | .rng _ _ => true

/-- The token built from four fields. -/
def specHyphenTok (fa fb fc fd : SpecOctetField) : Str :=
  fa.text ++ '.' :: fb.text ++ '.' :: fc.text ++ '.' :: fd.text

/-- The spec's expansion: cartesian product of the per-field ascending lists,
octet-major (leftmost slowest, rightmost fastest). -/
def specHyphenExpand (fa fb fc fd : SpecOctetField) : List Str :=
  fa.ascList.flatMap fun a => fb.ascList.flatMap fun b =>
    fc.ascList.flatMap fun c => fd.ascList.map fun d =>
      natToStr a ++ '.' :: natToStr b ++ '.' :: natToStr c ++ '.' :: natToStr d

/-! ## Lemmas about `splitOnChar` -/

theorem splitOnChar_ne_nil (c : Char) (s : Str) : splitOnChar c s ≠ [] := by
  cases s with
  | nil => simp [splitOnChar]
  | cons x xs =>
    unfold splitOnChar
    cases h : splitOnChar c xs with
    | nil => simp
    | cons h t => by_cases hx : x = c <;> simp [hx]

theorem splitOnChar_of_not_mem {c : Char} {s : Str} (h : c ∉ s) :
    splitOnChar c s = [s] := by
  induction s with
  | nil => rfl
  | cons x xs ih =>
    have hx : x ≠ c := fun he => h (he ▸ List.mem_cons_self x xs)
    have hxs : c ∉ xs := fun hm => h (List.mem_cons_of_mem x hm)
    unfold splitOnChar
    rw [ih hxs]
    simp [hx]

theorem splitOnChar_cons_eq {c x : Char} {xs h : Str} {t : List Str}
    (hxs : splitOnChar c xs = h :: t) :
    splitOnChar c (x :: xs) = if x = c then [] :: h :: t else (x :: h) :: t := by
  conv_lhs => unfold splitOnChar
  rw [hxs]

theorem splitOnChar_append {c : Char} {a : Str} (b : Str) (h : c ∉ a) :
    splitOnChar c (a ++ c :: b) = a :: splitOnChar c b := by
  induction a with
  | nil =>
    simp only [List.nil_append]
    cases hb : splitOnChar c b with
    | nil => exact absurd hb (splitOnChar_ne_nil c b)
    | cons p ps => simp [splitOnChar_cons_eq hb, hb]
  | cons x xs ih =>
    have hx : x ≠ c := fun he => h (he ▸ List.mem_cons_self x xs)
    have hxs : c ∉ xs := fun hm => h (List.mem_cons_of_mem x hm)
    simp only [List.cons_append]
    rw [splitOnChar_cons_eq (ih hxs), if_neg hx]

theorem joinParts_splitOnChar (c : Char) (s : Str) :
    joinParts c (splitOnChar c s) = s := by
  induction s with
  | nil => rfl
  | cons x xs ih =>
    unfold splitOnChar
    cases hxs : splitOnChar c xs with
    | nil => exact absurd hxs (splitOnChar_ne_nil c xs)
    | cons h t =>
      rw [hxs] at ih
      by_cases hx : x = c
      · subst hx
        simp only [if_pos rfl]
        show x :: joinParts x (h :: t) = x :: xs
        rw [ih]
      · simp only [if_neg hx]
        cases t with
        | nil => show x :: h = x :: xs; rw [show joinParts c [h] = h from rfl] at ih; rw [ih]
        | cons t1 ts =>
          show (x :: h) ++ c :: joinParts c (t1 :: ts) = x :: xs
          have : h ++ c :: joinParts c (t1 :: ts) = xs := ih
          simp [← this]

theorem eq_of_splitOnChar_pair {c : Char} {s l r : Str}
    (h : splitOnChar c s = [l, r]) : s = l ++ c :: r := by
  have := joinParts_splitOnChar c s
  rw [h] at this
  exact this.symm

theorem eq_of_splitOnChar_quad {c : Char} {s a b d e : Str}
    (h : splitOnChar c s = [a, b, d, e]) : s = a ++ c :: b ++ c :: d ++ c :: e := by
  have := joinParts_splitOnChar c s
  rw [h] at this
  rw [show joinParts c [a, b, d, e] = a ++ c :: (b ++ c :: (d ++ c :: e)) from rfl] at this
  rw [← this]
  simp

theorem length_splitOnChar (c : Char) (s : Str) :
    (splitOnChar c s).length = s.count c + 1 := by
  induction s with
  | nil => simp [splitOnChar]
  | cons x xs ih =>
    cases hxs : splitOnChar c xs with
    | nil => exact absurd hxs (splitOnChar_ne_nil c xs)
    | cons h t =>
      rw [hxs] at ih
      rw [splitOnChar_cons_eq hxs]
      by_cases hx : x = c
      · subst hx
        rw [if_pos rfl, List.count_cons_self]
        simp only [List.length_cons] at ih ⊢
        omega
      · have hcx : c ≠ x := fun he => hx he.symm
        rw [if_neg hx, List.count_cons_of_ne hcx]
        simp only [List.length_cons] at ih ⊢
        omega

/-! ## Lemmas about `natToStr` -/

theorem natToStrAux_congr : ∀ (n f g : Nat), n < f → n < g →
    natToStrAux f n = natToStrAux g n := by
  intro n
  induction n using Nat.strong_induction_on with
  | _ n ih =>
    intro f g hf hg
    match f, g with
    | f' + 1, g' + 1 =>
      unfold natToStrAux
      by_cases h10 : n < 10
      · simp [h10]
      · simp only [if_neg h10]
        have hlt : n / 10 < n := Nat.div_lt_self (by omega) (by omega)
        rw [ih (n / 10) hlt f' g' (by omega) (by omega)]

theorem natToStr_lt10 {n : Nat} (h : n < 10) : natToStr n = [digitChar n] := by
  unfold natToStr natToStrAux
  simp [h]

theorem natToStr_ge10 {n : Nat} (h : 10 ≤ n) :
    natToStr n = natToStr (n / 10) ++ [digitChar (n % 10)] := by
  unfold natToStr
  conv_lhs => rw [show n + 1 = n + 1 from rfl]
  unfold natToStrAux
  simp only [if_neg (by omega : ¬ n < 10)]
  congr 1
  exact natToStrAux_congr (n / 10) n (n / 10 + 1)
    (Nat.div_lt_self (by omega) (by omega)) (Nat.lt_succ_self _)

theorem digitChar_isDigit : ∀ d, d < 10 → isDigitCh (digitChar d) = true := by decide

theorem digitChar_toNat : ∀ d, d < 10 → (digitChar d).toNat = 48 + d := by decide

theorem natToStr_all_digits (n : Nat) : ∀ ch ∈ natToStr n, isDigitCh ch = true := by
  induction n using Nat.strong_induction_on with
  | _ n ih =>
    by_cases h10 : n < 10
    · rw [natToStr_lt10 h10]
      intro ch hch
      simp at hch
      subst hch
      exact digitChar_isDigit n h10
    · rw [natToStr_ge10 (by omega)]
      intro ch hch
      rw [List.mem_append] at hch
      rcases hch with hch | hch
      · exact ih (n / 10) (Nat.div_lt_self (by omega) (by omega)) ch hch
      · simp at hch
        subst hch
        exact digitChar_isDigit _ (Nat.mod_lt _ (by omega))

theorem not_mem_natToStr {c : Char} (hc : isDigitCh c = false) (n : Nat) :
    c ∉ natToStr n := by
  intro hm
  have := natToStr_all_digits n c hm
  rw [hc] at this
  exact Bool.false_ne_true this

theorem natToStr_ne_nil (n : Nat) : natToStr n ≠ [] := by
  by_cases h10 : n < 10
  · rw [natToStr_lt10 h10]; simp
  · rw [natToStr_ge10 (by omega)]; simp

theorem numberNat_append_digit (s : Str) (d : Char) :
    numberNat (s ++ [d]) = numberNat s * 10 + (d.toNat - 48) := by
  unfold numberNat
  rw [List.foldl_append]
  rfl

theorem numberNat_natToStr (n : Nat) : numberNat (natToStr n) = n := by
  induction n using Nat.strong_induction_on with
  | _ n ih =>
    by_cases h10 : n < 10
    · rw [natToStr_lt10 h10]
      show 0 * 10 + ((digitChar n).toNat - 48) = n
      rw [digitChar_toNat n h10]
      omega
    · rw [natToStr_ge10 (by omega), numberNat_append_digit,
        ih (n / 10) (Nat.div_lt_self (by omega) (by omega)),
        digitChar_toNat _ (Nat.mod_lt _ (by omega))]
      omega

theorem takeWhile_eq_self_of_all {p : Char → Bool} {l : Str}
    (h : ∀ a ∈ l, p a = true) : l.takeWhile p = l := by
  induction l with
  | nil => rfl
  | cons x xs ih =>
    rw [List.takeWhile_cons, if_pos (h x (List.mem_cons_self x xs))]
    rw [ih (fun a ha => h a (List.mem_cons_of_mem x ha))]

theorem parseIntNat_natToStr (n : Nat) : parseIntNat (natToStr n) = n := by
  unfold parseIntNat
  rw [takeWhile_eq_self_of_all (natToStr_all_digits n), numberNat_natToStr]

theorem natToStr_length_ge_three {n : Nat} (h : 100 ≤ n) :
    3 ≤ (natToStr n).length := by
  rw [natToStr_ge10 (by omega), natToStr_ge10 (by omega : 10 ≤ n / 10)]
  have h3 : 1 ≤ (natToStr (n / 10 / 10)).length :=
    List.length_pos.mpr (natToStr_ne_nil (n / 10 / 10))
  simp only [List.length_append, List.length_cons, List.length_nil]
  omega

/-! ## Character-set and decomposition lemmas for the grammars -/

theorem isDigitCh_between {c lo hi : Char} (h1 : lo ≤ c) (h2 : c ≤ hi)
    (h3 : '0' ≤ lo) (h4 : hi ≤ '9') : isDigitCh c = true := by
  simp only [isDigitCh, Bool.and_eq_true, decide_eq_true_eq]
  exact ⟨le_trans h3 h1, le_trans h2 h4⟩

theorem octet_chars {o : Str} (h : isOctetStr o = true) :
    ∀ ch ∈ o, isDigitCh ch = true := by
  intro ch hch
  rcases o with _ | ⟨a, _ | ⟨b, _ | ⟨c, _ | ⟨x, t⟩⟩⟩⟩
  · simp at hch
  · have ha : isDigitCh a = true := h
    simp only [List.mem_singleton] at hch
    rwa [hch]
  · have h' : ((('1' : Char) ≤ a && a ≤ '9') && isDigitCh b) = true := h
    simp only [Bool.and_eq_true, decide_eq_true_eq] at h'
    simp only [List.mem_cons, List.mem_singleton, List.not_mem_nil, or_false] at hch
    rcases hch with hch | hch <;> subst hch
    · exact isDigitCh_between h'.1.1 h'.1.2 (by decide) (le_refl _)
    · exact h'.2
  · have h' : ((a = '2' && b = '5' && ('0' ≤ c && c ≤ '5')) ||
        (a = '2' && ('0' ≤ b && b ≤ '4') && isDigitCh c) ||
        (a = '1' && isDigitCh b && isDigitCh c)) = true := h
    simp only [Bool.or_eq_true, Bool.and_eq_true, decide_eq_true_eq] at h'
    have hall : isDigitCh a = true ∧ isDigitCh b = true ∧ isDigitCh c = true := by
      rcases h' with (⟨⟨h1, h2⟩, h3, h4⟩ | ⟨⟨h1, h2, h3⟩, h4⟩) | ⟨⟨h1, h2⟩, h3⟩
      · subst h1; subst h2
        exact ⟨by decide, by decide, isDigitCh_between h3 h4 (le_refl _) (by decide)⟩
      · subst h1
        exact ⟨by decide, isDigitCh_between h2 h3 (le_refl _) (by decide), h4⟩
      · subst h1
        exact ⟨by decide, h2, h3⟩
    simp only [List.mem_cons, List.mem_singleton, List.not_mem_nil, or_false] at hch
    rcases hch with hch | hch | hch <;> subst hch
    · exact hall.1
    · exact hall.2.1
    · exact hall.2.2
  · exact absurd h (by simp [isOctetStr])

theorem cidrPrefix_chars {p : Str} (h : isCidrPrefixStr p = true) :
    ∀ ch ∈ p, isDigitCh ch = true := by
  intro ch hch
  rcases p with _ | ⟨a, _ | ⟨b, _ | ⟨c, t⟩⟩⟩
  · simp at hch
  · have h' : ((('4' : Char) ≤ a && a ≤ '9') || a = '3' || a = '2' || a = '1') = true := h
    simp only [Bool.or_eq_true, Bool.and_eq_true, decide_eq_true_eq] at h'
    simp only [List.mem_singleton] at hch
    subst hch
    rcases h' with ((⟨h1, h2⟩ | h1) | h1) | h1
    · exact isDigitCh_between h1 h2 (by decide) (le_refl _)
    · subst h1; decide
    · subst h1; decide
    · subst h1; decide
  · have h' : ((a = '3' && ('0' ≤ b && b ≤ '2')) || (a = '2' && isDigitCh b) ||
        (a = '1' && isDigitCh b)) = true := h
    simp only [Bool.or_eq_true, Bool.and_eq_true, decide_eq_true_eq] at h'
    have hall : isDigitCh a = true ∧ isDigitCh b = true := by
      rcases h' with (⟨h1, h2, h3⟩ | ⟨h1, h2⟩) | ⟨h1, h2⟩
      · subst h1; exact ⟨by decide, isDigitCh_between h2 h3 (le_refl _) (by decide)⟩
      · subst h1; exact ⟨by decide, h2⟩
      · subst h1; exact ⟨by decide, h2⟩
    simp only [List.mem_cons, List.mem_singleton, List.not_mem_nil, or_false] at hch
    rcases hch with hch | hch <;> subst hch
    · exact hall.1
    · exact hall.2
  · exact absurd h (by simp [isCidrPrefixStr])

theorem mem_pair_parts {ch sep : Char} {l r : Str} (h : ch ∈ l ++ sep :: r) :
    ch ∈ l ∨ ch ∈ r ∨ ch = sep := by
  simp only [List.mem_append, List.mem_cons] at h
  tauto

theorem mem_quad_parts {ch sep : Char} {a b c d : Str}
    (h : ch ∈ a ++ sep :: b ++ sep :: c ++ sep :: d) :
    ch ∈ a ∨ ch ∈ b ∨ ch ∈ c ∨ ch ∈ d ∨ ch = sep := by
  simp only [List.mem_append, List.mem_cons] at h
  tauto

theorem quad_decomp {q : Str} (h : isQuadStr q = true) :
    ∃ a b c d, splitOnChar '.' q = [a, b, c, d] ∧
      isOctetStr a = true ∧ isOctetStr b = true ∧ isOctetStr c = true ∧
      isOctetStr d = true ∧ q = a ++ '.' :: b ++ '.' :: c ++ '.' :: d := by
  unfold isQuadStr at h
  rcases hq : splitOnChar '.' q with _ | ⟨a, _ | ⟨b, _ | ⟨c, _ | ⟨d, _ | ⟨e, t⟩⟩⟩⟩⟩ <;>
    rw [hq] at h
  · exact Bool.noConfusion h
  · exact Bool.noConfusion h
  · exact Bool.noConfusion h
  · exact Bool.noConfusion h
  · simp only [Bool.and_eq_true] at h
    exact ⟨a, b, c, d, rfl, h.1.1.1, h.1.1.2, h.1.2, h.2, eq_of_splitOnChar_quad hq⟩
  · exact Bool.noConfusion h

theorem quad_chars {q : Str} (h : isQuadStr q = true) :
    ∀ ch ∈ q, isDigitCh ch = true ∨ ch = '.' := by
  obtain ⟨a, b, c, d, -, ha, hb, hc, hd, heq⟩ := quad_decomp h
  subst heq
  intro ch hch
  rcases mem_quad_parts hch with hch | hch | hch | hch | hch
  · exact Or.inl (octet_chars ha ch hch)
  · exact Or.inl (octet_chars hb ch hch)
  · exact Or.inl (octet_chars hc ch hch)
  · exact Or.inl (octet_chars hd ch hch)
  · exact Or.inr hch

theorem not_mem_quad {q : Str} (h : isQuadStr q = true) {c : Char}
    (hdig : isDigitCh c = false) (hdot : c ≠ '.') : c ∉ q := by
  intro hm
  rcases quad_chars h c hm with hd | hd
  · rw [hdig] at hd; exact Bool.false_ne_true hd
  · exact hdot hd

theorem quad_count_dot {q : Str} (h : isQuadStr q = true) : q.count '.' = 3 := by
  obtain ⟨a, b, c, d, -, ha, hb, hc, hd, heq⟩ := quad_decomp h
  subst heq
  have hz : ∀ o : Str, isOctetStr o = true → o.count '.' = 0 := by
    intro o ho
    rw [List.count_eq_zero]
    intro hm
    have := octet_chars ho '.' hm
    simp [isDigitCh] at this
  simp only [List.count_append, List.count_cons_self]
  rw [hz a ha, hz b hb, hz c hc, hz d hd]

theorem ss_decomp {s : Str} (h : isStartStopStr s = true) :
    ∃ l r, splitOnChar '-' s = [l, r] ∧ isQuadStr l = true ∧ isQuadStr r = true ∧
      s = l ++ '-' :: r := by
  unfold isStartStopStr at h
  rcases hs : splitOnChar '-' s with _ | ⟨l, _ | ⟨r, _ | ⟨e, t⟩⟩⟩ <;> rw [hs] at h
  · exact Bool.noConfusion h
  · exact Bool.noConfusion h
  · simp only [Bool.and_eq_true] at h
    exact ⟨l, r, rfl, h.1, h.2, eq_of_splitOnChar_pair hs⟩
  · exact Bool.noConfusion h

theorem ss_chars {s : Str} (h : isStartStopStr s = true) :
    ∀ ch ∈ s, isDigitCh ch = true ∨ ch = '.' ∨ ch = '-' := by
  obtain ⟨l, r, -, hl, hr, heq⟩ := ss_decomp h
  subst heq
  intro ch hch
  rcases mem_pair_parts hch with hch | hch | hch
  · rcases quad_chars hl ch hch with hd | hd
    · exact Or.inl hd
    · exact Or.inr (Or.inl hd)
  · rcases quad_chars hr ch hch with hd | hd
    · exact Or.inl hd
    · exact Or.inr (Or.inl hd)
  · exact Or.inr (Or.inr hch)

theorem ss_count_dot {s : Str} (h : isStartStopStr s = true) : s.count '.' = 6 := by
  obtain ⟨l, r, -, hl, hr, heq⟩ := ss_decomp h
  subst heq
  simp only [List.count_append, List.count_cons_of_ne (by decide : ('.' : Char) ≠ '-')]
  rw [quad_count_dot hl, quad_count_dot hr]

theorem qc_decomp {s : Str} (h : isQuadOrCidrStr s = true) :
    (isQuadStr s = true) ∨
    (∃ q p, splitOnChar '/' s = [q, p] ∧ isQuadStr q = true ∧
      isCidrPrefixStr p = true ∧ s = q ++ '/' :: p) := by
  unfold isQuadOrCidrStr at h
  rcases hs : splitOnChar '/' s with _ | ⟨q, _ | ⟨p, _ | ⟨e, t⟩⟩⟩ <;> rw [hs] at h
  · exact Bool.noConfusion h
  · left
    have hqs : q = s := by
      have := joinParts_splitOnChar '/' s
      rw [hs] at this
      exact this
    have h' : isQuadStr q = true := h
    exact hqs ▸ h'
  · right
    simp only [Bool.and_eq_true] at h
    exact ⟨q, p, rfl, h.1, h.2, eq_of_splitOnChar_pair hs⟩
  · exact Bool.noConfusion h

theorem qc_chars {s : Str} (h : isQuadOrCidrStr s = true) :
    ∀ ch ∈ s, isDigitCh ch = true ∨ ch = '.' ∨ ch = '/' := by
  rcases qc_decomp h with hq | ⟨q, p, -, hq, hp, heq⟩
  · intro ch hch
    rcases quad_chars hq ch hch with hd | hd
    · exact Or.inl hd
    · exact Or.inr (Or.inl hd)
  · subst heq
    intro ch hch
    rcases mem_pair_parts hch with hch | hch | hch
    · rcases quad_chars hq ch hch with hd | hd
      · exact Or.inl hd
      · exact Or.inr (Or.inl hd)
    · exact Or.inl (cidrPrefix_chars hp ch hch)
    · exact Or.inr (Or.inr hch)

theorem hyphenField_chars {f : Str} (h : isHyphenFieldStr f = true) :
    ∀ ch ∈ f, isDigitCh ch = true ∨ ch = '-' := by
  unfold isHyphenFieldStr at h
  rcases hf : splitOnChar '-' f with _ | ⟨a, _ | ⟨b, _ | ⟨e, t⟩⟩⟩ <;> rw [hf] at h
  · exact Bool.noConfusion h
  · have haf : a = f := by
      have := joinParts_splitOnChar '-' f
      rw [hf] at this
      exact this
    have h' : isOctetStr a = true := h
    intro ch hch
    rw [← haf] at hch
    exact Or.inl (octet_chars h' ch hch)
  · simp only [Bool.and_eq_true] at h
    have heq := eq_of_splitOnChar_pair hf
    subst heq
    intro ch hch
    rcases mem_pair_parts hch with hch | hch | hch
    · exact Or.inl (octet_chars h.1 ch hch)
    · exact Or.inl (octet_chars h.2 ch hch)
    · exact Or.inr hch
  · exact Bool.noConfusion h

theorem hyphenField_count_dot {f : Str} (h : isHyphenFieldStr f = true) :
    f.count '.' = 0 := by
  rw [List.count_eq_zero]
  intro hm
  rcases hyphenField_chars h '.' hm with hd | hd
  · simp [isDigitCh] at hd
  · exact absurd hd (by decide)

theorem hyphen_decomp {s : Str} (h : isHyphenTokStr s = true) :
    ∃ a b c d, splitOnChar '.' s = [a, b, c, d] ∧
      isHyphenFieldStr a = true ∧ isHyphenFieldStr b = true ∧
      isHyphenFieldStr c = true ∧ isHyphenFieldStr d = true ∧
      s = a ++ '.' :: b ++ '.' :: c ++ '.' :: d := by
  unfold isHyphenTokStr at h
  rcases hs : splitOnChar '.' s with _ | ⟨a, _ | ⟨b, _ | ⟨c, _ | ⟨d, _ | ⟨e, t⟩⟩⟩⟩⟩ <;>
    rw [hs] at h <;> simp only [Bool.and_eq_true] at h
  · exact Bool.noConfusion h
  · exact Bool.noConfusion h
  · exact Bool.noConfusion h
  · exact Bool.noConfusion h
  · exact ⟨a, b, c, d, rfl, h.1.1.1, h.1.1.2, h.1.2, h.2, eq_of_splitOnChar_quad hs⟩
  · exact Bool.noConfusion h

theorem hyphenTok_chars {s : Str} (h : isHyphenTokStr s = true) :
    ∀ ch ∈ s, isDigitCh ch = true ∨ ch = '.' ∨ ch = '-' := by
  obtain ⟨a, b, c, d, -, ha, hb, hc, hd, heq⟩ := hyphen_decomp h
  subst heq
  intro ch hch
  rcases mem_quad_parts hch with hch | hch | hch | hch | hch
  · rcases hyphenField_chars ha ch hch with hd' | hd'
    · exact Or.inl hd'
    · exact Or.inr (Or.inr hd')
  · rcases hyphenField_chars hb ch hch with hd' | hd'
    · exact Or.inl hd'
    · exact Or.inr (Or.inr hd')
  · rcases hyphenField_chars hc ch hch with hd' | hd'
    · exact Or.inl hd'
    · exact Or.inr (Or.inr hd')
  · rcases hyphenField_chars hd ch hch with hd' | hd'
    · exact Or.inl hd'
    · exact Or.inr (Or.inr hd')
  · exact Or.inr (Or.inl hch)

theorem hyphenTok_count_dot {s : Str} (h : isHyphenTokStr s = true) :
    s.count '.' = 3 := by
  obtain ⟨a, b, c, d, -, ha, hb, hc, hd, heq⟩ := hyphen_decomp h
  subst heq
  simp only [List.count_append, List.count_cons_self]
  rw [hyphenField_count_dot ha, hyphenField_count_dot hb, hyphenField_count_dot hc,
    hyphenField_count_dot hd]

theorem cidrTok_has_slash {s : Str} (h : isCidrTokStr s = true) : '/' ∈ s := by
  unfold isCidrTokStr at h
  rcases hs : splitOnChar '/' s with _ | ⟨q, _ | ⟨p, ps⟩⟩ <;> rw [hs] at h
  · exact Bool.noConfusion h
  · exact Bool.noConfusion h
  · rw [← List.count_pos_iff]
    have := length_splitOnChar '/' s
    rw [hs] at this
    simp only [List.length_cons] at this
    omega

theorem anyMatch_chars {s : Str} (h : isAnyMatch s = true) :
    ∀ ch ∈ s, isDigitCh ch = true ∨ ch = '.' ∨ ch = '-' ∨ ch = '/' := by
  unfold isAnyMatch at h
  simp only [Bool.or_eq_true] at h
  intro ch hch
  rcases h with (h | h) | h
  · rcases ss_chars h ch hch with hd | hd | hd
    · exact Or.inl hd
    · exact Or.inr (Or.inl hd)
    · exact Or.inr (Or.inr (Or.inl hd))
  · rcases qc_chars h ch hch with hd | hd | hd
    · exact Or.inl hd
    · exact Or.inr (Or.inl hd)
    · exact Or.inr (Or.inr (Or.inr hd))
  · rcases hyphenTok_chars h ch hch with hd | hd | hd
    · exact Or.inl hd
    · exact Or.inr (Or.inl hd)
    · exact Or.inr (Or.inr (Or.inl hd))

theorem anyMatch_no_space {s : Str} (h : isAnyMatch s = true) : ' ' ∉ s := by
  intro hm
  rcases anyMatch_chars h ' ' hm with hd | hd | hd | hd
  · simp [isDigitCh] at hd
  · exact absurd hd (by decide)
  · exact absurd hd (by decide)
  · exact absurd hd (by decide)

theorem anyMatch_has_dot {s : Str} (h : isAnyMatch s = true) : '.' ∈ s := by
  unfold isAnyMatch at h
  simp only [Bool.or_eq_true] at h
  rw [← List.count_pos_iff]
  rcases h with (h | h) | h
  · rw [ss_count_dot h]; omega
  · rcases qc_decomp h with hq | ⟨q, p, -, hq, hp, heq⟩
    · rw [quad_count_dot hq]; omega
    · subst heq
      simp only [List.count_append, List.count_cons_of_ne (by decide : ('.' : Char) ≠ '/')]
      rw [quad_count_dot hq]
      omega
  · rw [hyphenTok_count_dot h]; omega

theorem anyMatch_nil_false : isAnyMatch [] = false := by decide

/-! ## Lemmas about suffix matching (`jsMatchTail`, the `.test` functions) -/

theorem existsSuffix_iff (p : Str → Bool) (s : Str) :
    existsSuffix p s = true ↔ ∃ t, t <:+ s ∧ p t = true := by
  induction s with
  | nil =>
    simp only [existsSuffix]
    constructor
    · intro h
      exact ⟨[], List.suffix_refl [], h⟩
    · rintro ⟨t, ht, hp⟩
      rw [List.suffix_nil] at ht
      subst ht
      exact hp
  | cons c cs ih =>
    simp only [existsSuffix, Bool.or_eq_true, ih]
    constructor
    · rintro (h | ⟨t, ht, hp⟩)
      · exact ⟨c :: cs, List.suffix_refl _, h⟩
      · exact ⟨t, ht.trans (List.suffix_cons c cs), hp⟩
    · rintro ⟨t, ht, hp⟩
      rcases List.suffix_cons_iff.mp ht with h | h
      · subst h
        exact Or.inl hp
      · exact Or.inr ⟨t, h, hp⟩

theorem jsMatchTail_some {s t : Str} (h : jsMatchTail s = some t) :
    t <:+ s ∧ isAnyMatch t = true := by
  induction s with
  | nil =>
    rw [jsMatchTail, anyMatch_nil_false] at h
    simp at h
  | cons c cs ih =>
    rw [jsMatchTail] at h
    by_cases hm : isAnyMatch (c :: cs) = true
    · rw [if_pos hm] at h
      cases h
      exact ⟨List.suffix_refl _, hm⟩
    · rw [if_neg hm] at h
      obtain ⟨h1, h2⟩ := ih h
      exact ⟨h1.trans (List.suffix_cons c cs), h2⟩

theorem jsMatchTail_none {s : Str} (h : ∀ t, t <:+ s → isAnyMatch t = false) :
    jsMatchTail s = none := by
  induction s with
  | nil =>
    rw [jsMatchTail, anyMatch_nil_false]
    simp
  | cons c cs ih =>
    rw [jsMatchTail, h (c :: cs) (List.suffix_refl _)]
    simp only [Bool.false_eq_true, if_false]
    exact ih (fun t ht => h t (ht.trans (List.suffix_cons c cs)))

theorem jsMatchTail_skip {a b : Str}
    (h : ∀ w, w <:+ a → w ≠ [] → isAnyMatch (w ++ b) = false) :
    jsMatchTail (a ++ b) = jsMatchTail b := by
  induction a with
  | nil => rfl
  | cons c cs ih =>
    rw [List.cons_append, jsMatchTail,
      show (c :: (cs ++ b)) = (c :: cs) ++ b from rfl,
      h (c :: cs) (List.suffix_refl _) (by simp)]
    simp only [Bool.false_eq_true, if_false]
    exact ih (fun w hw hne => h w (hw.trans (List.suffix_cons c cs)) hne)

theorem suffix_end_mem {w ys : Str} {c : Char} (h : w <:+ ys ++ [c]) (hne : w ≠ []) :
    c ∈ w := by
  obtain ⟨pre, hpre⟩ := h
  cases hw : w.reverse with
  | nil => exact absurd (List.reverse_eq_nil_iff.mp hw) hne
  | cons x xs =>
    have hx : x = c := by
      have : w.reverse ++ pre.reverse = [c] ++ ys.reverse := by
        rw [← List.reverse_append, hpre, List.reverse_append]
        rfl
      rw [hw] at this
      simpa using congrArg (fun l => l.headD c) this
    have : x ∈ w.reverse := by rw [hw]; exact List.mem_cons_self x xs
    rw [hx] at this
    exact List.mem_reverse.mp this

/-! ## Lemmas about `replaceFirst`, `jsTrim` and the parsing loop -/

theorem replaceFirst_length_lt {pat : Str} (hne : pat ≠ []) :
    ∀ {s : Str}, pat <:+ s → (replaceFirst s pat).length < s.length := by
  intro s
  induction s with
  | nil =>
    intro hs
    rw [List.suffix_nil] at hs
    exact absurd hs hne
  | cons c cs ih =>
    intro hs
    rw [replaceFirst]
    by_cases hp : pat.isPrefixOf (c :: cs)
    · rw [if_pos hp]
      have hple : pat.length ≤ (c :: cs).length :=
        (List.isPrefixOf_iff_prefix.mp hp).length_le
      have hpos : 0 < pat.length := List.length_pos.mpr hne
      rw [List.length_drop]
      simp only [List.length_cons] at hple ⊢
      omega
    · rw [if_neg hp]
      rcases List.suffix_cons_iff.mp hs with h | h
      · exact absurd (List.isPrefixOf_iff_prefix.mpr (h ▸ List.prefix_refl _)) hp
      · simp only [List.length_cons]
        exact Nat.succ_lt_succ (ih h)

theorem length_dropWhile_le (p : Char → Bool) (l : Str) :
    (l.dropWhile p).length ≤ l.length := by
  induction l with
  | nil => simp
  | cons c cs ih =>
    rw [List.dropWhile_cons]
    by_cases hc : p c = true
    · rw [if_pos hc]
      simp only [List.length_cons]
      omega
    · rw [if_neg hc]

theorem jsTrim_length_le (s : Str) : (jsTrim s).length ≤ s.length := by
  unfold jsTrim
  rw [List.length_reverse]
  calc ((s.dropWhile Char.isWhitespace).reverse.dropWhile Char.isWhitespace).length
      ≤ (s.dropWhile Char.isWhitespace).reverse.length := length_dropWhile_le _ _
    _ = (s.dropWhile Char.isWhitespace).length := List.length_reverse _
    _ ≤ s.length := length_dropWhile_le _ _

theorem jsTrim_append_ws {p : Str} {c : Char} (hc : c.isWhitespace = true) :
    jsTrim (p ++ [c]) = jsTrim p := by
  unfold jsTrim
  rw [List.dropWhile_append]
  by_cases hq : (p.dropWhile Char.isWhitespace).isEmpty = true
  · rw [if_pos hq]
    rw [List.isEmpty_iff] at hq
    rw [hq]
    simp [hc]
  · rw [if_neg hq]
    rw [List.reverse_append]
    show ((([c].reverse) ++ _).dropWhile _).reverse = _
    rw [List.reverse_singleton, List.singleton_append, List.dropWhile_cons_of_pos hc]

theorem listIPLoop_acc (f : Nat) (cmd : Str) (acc : List Str) :
    listIPLoop f cmd acc = acc ++ listIPLoop f cmd [] := by
  induction f generalizing cmd acc with
  | zero => simp [listIPLoop]
  | succ f ih =>
    cases h : jsMatchTail cmd with
    | none => simp [listIPLoop, h]
    | some tok =>
      simp only [listIPLoop, h]
      rw [ih _ (acc ++ processToken tok), ih _ ([] ++ processToken tok)]
      simp

theorem loop_shrink {cmd tok : Str} (h : jsMatchTail cmd = some tok) :
    (jsTrim (replaceFirst cmd tok)).length < cmd.length := by
  obtain ⟨hsuf, hacc⟩ := jsMatchTail_some h
  have hne : tok ≠ [] := by
    intro he
    rw [he, anyMatch_nil_false] at hacc
    exact Bool.noConfusion hacc
  exact lt_of_le_of_lt (jsTrim_length_le _) (replaceFirst_length_lt hne hsuf)

theorem listIPLoop_fuel : ∀ (n : Nat) (cmd : Str), cmd.length ≤ n →
    ∀ (f g : Nat) (acc : List Str), cmd.length < f → cmd.length < g →
    listIPLoop f cmd acc = listIPLoop g cmd acc := by
  intro n
  induction n with
  | zero =>
    intro cmd hn f g acc hf hg
    match f, g with
    | f' + 1, g' + 1 =>
      rw [listIPLoop, listIPLoop]
      cases h : jsMatchTail cmd with
      | none => rfl
      | some tok =>
        exfalso
        have := loop_shrink h
        omega
  | succ n ih =>
    intro cmd hn f g acc hf hg
    match f, g with
    | f' + 1, g' + 1 =>
      rw [listIPLoop, listIPLoop]
      cases h : jsMatchTail cmd with
      | none => rfl
      | some tok =>
        have hlt := loop_shrink h
        exact ih _ (by omega) f' g' _ (by omega) (by omega)

theorem listIPLoop_eq_ListIPAddresses {cmd : Str} {f : Nat} (h : cmd.length < f) :
    listIPLoop f cmd [] = ListIPAddresses cmd :=
  listIPLoop_fuel cmd.length cmd (le_refl _) f (cmd.length + 1) []
    h (Nat.lt_succ_self _)

theorem ListIPAddresses_none {cmd : Str} (h : jsMatchTail cmd = none) :
    ListIPAddresses cmd = [] := by
  unfold ListIPAddresses
  simp [listIPLoop, h]

theorem ListIPAddresses_step {cmd tok : Str} (h : jsMatchTail cmd = some tok) :
    ListIPAddresses cmd =
      processToken tok ++ ListIPAddresses (jsTrim (replaceFirst cmd tok)) := by
  conv_lhs => unfold ListIPAddresses
  simp only [listIPLoop, h]
  rw [listIPLoop_acc, List.nil_append]
  congr 1
  exact listIPLoop_eq_ListIPAddresses (loop_shrink h)

/-! ## Renderings of octets and CIDR prefixes -/

set_option maxRecDepth 8192 in
theorem isOctetStr_natToStr : ∀ n, n < 256 → isOctetStr (natToStr n) = true := by decide

set_option maxRecDepth 8192 in
theorem isCidrPrefixStr_natToStr_small :
    ∀ P, P < 100 → isCidrPrefixStr (natToStr P) = decide (1 ≤ P ∧ P ≤ 32) := by decide

theorem isCidrPrefixStr_long {s : Str} (h : 3 ≤ s.length) :
    isCidrPrefixStr s = false := by
  rcases s with _ | ⟨a, _ | ⟨b, _ | ⟨c, t⟩⟩⟩
  · simp at h
  · simp at h
  · simp at h
  · rfl

/-- The acceptance of a rendered prefix length: exactly `1 ≤ P ≤ 32`, not
the `4 ≤ P ≤ 32` the one-character alternatives of the regex suggest. -/
theorem isCidrPrefixStr_natToStr (P : Nat) :
    isCidrPrefixStr (natToStr P) = decide (1 ≤ P ∧ P ≤ 32) := by
  by_cases h : P < 100
  · exact isCidrPrefixStr_natToStr_small P h
  · rw [isCidrPrefixStr_long (natToStr_length_ge_three (by omega))]
    symm
    rw [decide_eq_false_iff_not]
    omega

theorem splitOnChar_quadStr (A B C D : Nat) :
    splitOnChar '.' (quadStr A B C D) =
      [natToStr A, natToStr B, natToStr C, natToStr D] := by
  unfold quadStr
  rw [show natToStr A ++ '.' :: natToStr B ++ '.' :: natToStr C ++ '.' :: natToStr D
      = natToStr A ++ '.' :: (natToStr B ++ '.' :: (natToStr C ++ '.' :: natToStr D))
      by simp]
  rw [splitOnChar_append _ (not_mem_natToStr (by decide) A),
    splitOnChar_append _ (not_mem_natToStr (by decide) B),
    splitOnChar_append _ (not_mem_natToStr (by decide) C),
    splitOnChar_of_not_mem (not_mem_natToStr (by decide) D)]

theorem isQuadStr_quadStr {A B C D : Nat} (hA : A ≤ 255) (hB : B ≤ 255)
    (hC : C ≤ 255) (hD : D ≤ 255) : isQuadStr (quadStr A B C D) = true := by
  unfold isQuadStr
  rw [splitOnChar_quadStr]
  show (isOctetStr (natToStr A) && isOctetStr (natToStr B) &&
    isOctetStr (natToStr C) && isOctetStr (natToStr D)) = true
  rw [isOctetStr_natToStr A (by omega), isOctetStr_natToStr B (by omega),
    isOctetStr_natToStr C (by omega), isOctetStr_natToStr D (by omega)]
  rfl

theorem not_mem_quadStr {c : Char} (h1 : isDigitCh c = false) (h2 : c ≠ '.')
    (A B C D : Nat) : c ∉ quadStr A B C D := by
  intro hm
  unfold quadStr at hm
  rcases mem_quad_parts hm with hx | hx | hx | hx | hx
  · exact not_mem_natToStr h1 A hx
  · exact not_mem_natToStr h1 B hx
  · exact not_mem_natToStr h1 C hx
  · exact not_mem_natToStr h1 D hx
  · exact h2 hx

theorem quadStr_count_dot (A B C D : Nat) : (quadStr A B C D).count '.' = 3 := by
  have hz : ∀ n, (natToStr n).count '.' = 0 := fun n =>
    List.count_eq_zero.mpr (not_mem_natToStr (by decide) n)
  unfold quadStr
  simp only [List.count_append, List.count_cons_self, hz]

/-! ## Dispatch lemmas for the `.test` functions -/

theorem testStartStop_false_of_dots {x : Str} (h : x.count '.' < 6) :
    testStartStop x = false := by
  have : ¬ (testStartStop x = true) := by
    rw [testStartStop, existsSuffix_iff]
    rintro ⟨t, ht, hp⟩
    have h6 := ss_count_dot hp
    have hle := ht.sublist.count_le '.'
    omega
  simp only [Bool.not_eq_true] at this
  exact this

theorem testCIDR_false_of_no_slash {x : Str} (h : '/' ∉ x) :
    testCIDR x = false := by
  have : ¬ (testCIDR x = true) := by
    rw [testCIDR, existsSuffix_iff]
    rintro ⟨t, ht, hp⟩
    exact h (ht.subset (cidrTok_has_slash hp))
  simp only [Bool.not_eq_true] at this
  exact this

theorem testHyphen_of_self {x : Str} (h : isHyphenTokStr x = true) :
    testNmapHyphenOrSingle x = true := by
  rw [testNmapHyphenOrSingle, existsSuffix_iff]
  exact ⟨x, List.suffix_refl x, h⟩

theorem testCIDR_of_self {x : Str} (h : isCidrTokStr x = true) :
    testCIDR x = true := by
  rw [testCIDR, existsSuffix_iff]
  exact ⟨x, List.suffix_refl x, h⟩

theorem testStartStop_of_self {x : Str} (h : isStartStopStr x = true) :
    testStartStop x = true := by
  rw [testStartStop, existsSuffix_iff]
  exact ⟨x, List.suffix_refl x, h⟩

/-! ## The CIDR token: acceptance and rejection -/

theorem splitOnChar_cidrTok (A B C D P : Nat) :
    splitOnChar '/' (quadStr A B C D ++ '/' :: natToStr P) =
      [quadStr A B C D, natToStr P] := by
  rw [splitOnChar_append _ (not_mem_quadStr (by decide) (by decide) A B C D),
    splitOnChar_of_not_mem (not_mem_natToStr (by decide) P)]

theorem digits_no_match {t : Str} (h : ∀ ch ∈ t, isDigitCh ch = true) :
    isAnyMatch t = false := by
  cases hA : isAnyMatch t with
  | false => rfl
  | true =>
    have hdot := anyMatch_has_dot hA
    have := h '.' hdot
    exact Bool.noConfusion this

theorem slash_tail_no_match {w : Str} {P : Nat}
    (hbad : isCidrPrefixStr (natToStr P) = false) :
    isAnyMatch (w ++ '/' :: natToStr P) = false := by
  cases hA : isAnyMatch (w ++ '/' :: natToStr P) with
  | false => rfl
  | true =>
    exfalso
    have hslash : '/' ∈ w ++ '/' :: natToStr P :=
      List.mem_append_right _ (List.mem_cons_self _ _)
    unfold isAnyMatch at hA
    simp only [Bool.or_eq_true] at hA
    rcases hA with (hA | hA) | hA
    · rcases ss_chars hA '/' hslash with hd | hd | hd
      · exact Bool.noConfusion hd
      · exact absurd hd (by decide)
      · exact absurd hd (by decide)
    · rcases qc_decomp hA with hq | ⟨q, p, hsp, hq, hp, heq⟩
      · rcases quad_chars hq '/' hslash with hd | hd
        · exact Bool.noConfusion hd
        · exact absurd hd (by decide)
      · by_cases hw : '/' ∈ w
        · have hcount := length_splitOnChar '/' (w ++ '/' :: natToStr P)
          rw [hsp] at hcount
          simp only [List.length_cons, List.length_nil, List.count_append,
            List.count_cons_self] at hcount
          have h1 : 0 < w.count '/' := List.count_pos_iff.mpr hw
          omega
        · have hp0 : '/' ∉ natToStr P := not_mem_natToStr (by decide) P
          rw [splitOnChar_append _ hw, splitOnChar_of_not_mem hp0] at hsp
          have hpp : p = natToStr P := by
            injection hsp with h1 h2
            injection h2 with h3 h4
            exact h3.symm
          rw [hpp, hbad] at hp
          exact Bool.noConfusion hp
    · rcases hyphenTok_chars hA '/' hslash with hd | hd | hd
      · exact Bool.noConfusion hd
      · exact absurd hd (by decide)
      · exact absurd hd (by decide)

theorem suffix_append_cons {t A p : Str} {c : Char} (h : t <:+ A ++ c :: p) :
    t <:+ p ∨ ∃ w, w <:+ A ∧ t = w ++ c :: p := by
  induction A with
  | nil =>
    rcases List.suffix_cons_iff.mp h with h | h
    · exact Or.inr ⟨[], List.suffix_refl [], h⟩
    · exact Or.inl h
  | cons a A ih =>
    rw [List.cons_append] at h
    rcases List.suffix_cons_iff.mp h with h | h
    · exact Or.inr ⟨a :: A, List.suffix_refl _, by rw [h, List.cons_append]⟩
    · rcases ih h with h' | ⟨w, hw, ht⟩
      · exact Or.inl h'
      · exact Or.inr ⟨w, hw.trans (List.suffix_cons a A), ht⟩

/-- With a rejected prefix length, no suffix of the command matches, so
`ListIPAddresses` fires no iteration at all. -/
theorem jsMatchTail_badP {X : Str} {P : Nat}
    (hbad : isCidrPrefixStr (natToStr P) = false) :
    jsMatchTail (X ++ '/' :: natToStr P) = none := by
  apply jsMatchTail_none
  intro t ht
  rcases suffix_append_cons ht with hcase | ⟨w, -, heq⟩
  · apply digits_no_match
    intro ch hch
    exact natToStr_all_digits P ch (hcase.subset hch)
  · rw [heq]
    exact slash_tail_no_match hbad

theorem jsMatchTail_after_space {X tok : Str} (htok : isAnyMatch tok = true) :
    jsMatchTail (X ++ ' ' :: tok) = some tok := by
  rw [show X ++ ' ' :: tok = (X ++ [' ']) ++ tok by simp]
  rw [jsMatchTail_skip]
  · cases tok with
    | nil => rw [anyMatch_nil_false] at htok; exact Bool.noConfusion htok
    | cons c cs => rw [jsMatchTail, if_pos htok]
  · intro w hw hne
    cases hA : isAnyMatch (w ++ tok) with
    | false => rfl
    | true =>
      exfalso
      exact anyMatch_no_space hA
        (List.mem_append_left _ (suffix_end_mem hw hne))

/-! ## 32-bit arithmetic lemmas -/

theorem uint32_lt (n : Int) : uint32 n < 4294967296 := by
  unfold uint32
  have h1 := Int.emod_nonneg n (by norm_num : (4294967296 : Int) ≠ 0)
  have h2 := Int.emod_lt_of_pos n (by norm_num : (0 : Int) < 4294967296)
  omega

theorem uint32_natCast {n : Nat} (h : n < 4294967296) : uint32 (n : Int) = n := by
  unfold uint32
  rw [Int.emod_eq_of_lt (by omega) (by omega)]
  omega

theorem toInt32_small {x : Int} (h0 : 0 ≤ x) (h1 : x < 2147483648) : toInt32 x = x := by
  show (if x % 4294967296 < 2147483648 then x % 4294967296
        else x % 4294967296 - 4294967296) = x
  rw [Int.emod_eq_of_lt h0 (by omega), if_pos h1]

theorem toInt32_natCast_high {n : Nat} (h1 : 2147483648 ≤ n) (h2 : n < 4294967296) :
    toInt32 ((n : Int)) = (n : Int) - 4294967296 := by
  show (if ((n : Int)) % 4294967296 < 2147483648 then ((n : Int)) % 4294967296
        else ((n : Int)) % 4294967296 - 4294967296) = (n : Int) - 4294967296
  rw [Int.emod_eq_of_lt (by omega) (by omega), if_neg (by omega)]

theorem toInt32_eq (n : Int) :
    toInt32 n = if n % 4294967296 < 2147483648 then n % 4294967296
      else n % 4294967296 - 4294967296 := rfl

theorem toInt32_shift (n : Int) : ∃ k : Int, toInt32 n = n + 4294967296 * k := by
  show ∃ k, (if n % 4294967296 < 2147483648 then n % 4294967296
        else n % 4294967296 - 4294967296) = n + 4294967296 * k
  have hdef := Int.emod_def n 4294967296
  by_cases h : n % 4294967296 < 2147483648
  · refine ⟨-(n / 4294967296), ?_⟩
    rw [if_pos h, hdef]
    ring
  · refine ⟨-(n / 4294967296) - 1, ?_⟩
    rw [if_neg h, hdef]
    ring

theorem uint32_toInt32_add (x d : Int) : uint32 (toInt32 x + d) = uint32 (x + d) := by
  obtain ⟨k, hk⟩ := toInt32_shift x
  unfold uint32
  rw [hk, show x + 4294967296 * k + d = x + d + 4294967296 * k by ring,
    Int.add_mul_emod_self_left]

theorem int2ip_congr {a b : Int} (h : uint32 a = uint32 b) : int2ip a = int2ip b := by
  unfold int2ip
  rw [h]

theorem land_mask {v : Nat} (s : Nat) (hv : v < 4294967296) (hs : s ≤ 32) :
    Nat.land v (4294967296 - 2 ^ s) = v / 2 ^ s * 2 ^ s := by
  have hmask : 4294967296 - 2 ^ s = (2 ^ (32 - s) - 1) <<< s := by
    rw [Nat.shiftLeft_eq, Nat.sub_mul, one_mul, ← Nat.pow_add]
    have hss : 32 - s + s = 32 := by omega
    rw [hss]
  have hrhs : v / 2 ^ s * 2 ^ s = (v >>> s) <<< s := by
    rw [Nat.shiftRight_eq_div_pow, Nat.shiftLeft_eq]
  rw [hmask, hrhs]
  apply Nat.eq_of_testBit_eq
  intro i
  rw [show Nat.land v ((2 ^ (32 - s) - 1) <<< s) = v &&& ((2 ^ (32 - s) - 1) <<< s)
      from rfl,
    Nat.testBit_and, Nat.testBit_shiftLeft, Nat.testBit_shiftLeft,
    Nat.testBit_two_pow_sub_one, Nat.testBit_shiftRight]
  by_cases h1 : s ≤ i
  · by_cases h2 : i < 32
    · have h3 : i - s < 32 - s := by omega
      have h4 : s + (i - s) = i := by omega
      simp [h1, h3, h4, ge_iff_le]
    · have hvi : v < 2 ^ i := by
        calc v < 4294967296 := hv
          _ = 2 ^ 32 := by norm_num
          _ ≤ 2 ^ i := Nat.pow_le_pow_right (by omega) (by omega)
      have h4 : Nat.testBit v i = false := Nat.testBit_lt_two_pow hvi
      have h3 : ¬ (i - s < 32 - s) := by omega
      have h5 : s + (i - s) = i := by omega
      simp [h1, h3, h4, h5, ge_iff_le]
  · simp [h1, ge_iff_le]

theorem uint32_neg_pow {s : Nat} (hs : s ≤ 32) :
    uint32 (-(((2 ^ s : Nat)) : Int)) = 4294967296 - 2 ^ s := by
  have htle : (2:Nat) ^ s ≤ 4294967296 := by
    calc (2:Nat) ^ s ≤ 2 ^ 32 := Nat.pow_le_pow_right (by omega) hs
      _ = 4294967296 := by norm_num
  have htpos : 1 ≤ (2:Nat) ^ s := Nat.one_le_two_pow
  unfold uint32
  have key : (-(((2 ^ s : Nat)) : Int)) % 4294967296 =
      ((4294967296 - 2 ^ s : Nat) : Int) := by
    have hsplit : (-(((2 ^ s : Nat)) : Int)) =
        ((4294967296 - 2 ^ s : Nat) : Int) + 4294967296 * (-1) := by
      push_cast [htle]
      ring
    rw [hsplit, Int.add_mul_emod_self_left]
    apply Int.emod_eq_of_lt
    · omega
    · omega
  rw [key]
  omega

theorem subnetMask_eq {P : Nat} (h1 : 1 ≤ P) (h2 : P ≤ 32) :
    subnetMaskToNumber (natToStr P) = -(((2 ^ (32 - P) : Nat)) : Int) := by
  unfold subnetMaskToNumber
  rw [numberNat_natToStr]
  set s := 32 - P with hsdef
  have hs31 : s ≤ 31 := by omega
  have hNle : (2:Nat) ^ s ≤ 2147483648 := by
    calc (2:Nat) ^ s ≤ 2 ^ 31 := Nat.pow_le_pow_right (by omega) hs31
      _ = 2147483648 := by norm_num
  have hNpos : 1 ≤ (2:Nat) ^ s := Nat.one_le_two_pow
  have hshl : jsShl32 4294967295 s = -(((2 ^ s : Nat)) : Int) := by
    unfold jsShl32
    rw [Nat.mod_eq_of_lt (by omega : s < 32)]
    have key : ((4294967295:Int) * (((2 ^ s : Nat)) : Int)) % 4294967296
        = ((4294967296 - 2 ^ s : Nat) : Int) := by
      have hsplit : (4294967295 : Int) * (((2 ^ s : Nat)) : Int) =
          ((4294967296 - 2 ^ s : Nat) : Int)
            + 4294967296 * ((((2 ^ s : Nat)) : Int) - 1) := by
        push_cast [show (2:Nat) ^ s ≤ 4294967296 by omega]
        ring
      rw [hsplit, Int.add_mul_emod_self_left]
      apply Int.emod_eq_of_lt
      · omega
      · omega
    rw [toInt32_eq, key, if_neg (by omega)]
    push_cast [show (2:Nat) ^ s ≤ 4294967296 by omega]
    ring
  rw [hshl]
  unfold jsAnd32
  have hu1 : uint32 (-(((2 ^ s : Nat)) : Int)) = 4294967296 - 2 ^ s :=
    uint32_neg_pow (by omega)
  have hu2 : uint32 (4294967295 : Int) = 4294967295 := by decide
  rw [hu1, hu2]
  have hland : Nat.land (4294967296 - 2 ^ s) 4294967295 = 4294967296 - 2 ^ s := by
    have hv : 4294967296 - 2 ^ s < 4294967296 := by omega
    have := land_mask 0 hv (by omega)
    simpa using this
  rw [hland]
  rw [show Int.ofNat (4294967296 - 2 ^ s) = (((4294967296 - 2 ^ s : Nat)) : Int) from rfl]
  rw [toInt32_natCast_high (by omega) (by omega)]
  push_cast [show (2:Nat) ^ s ≤ 4294967296 by omega]
  ring

/-! ## Values of `ip2int` and the expansions -/

theorem ip2int_quadStr {A B C D : Nat} (hA : A ≤ 255) (hB : B ≤ 255)
    (hC : C ≤ 255) (hD : D ≤ 255) :
    ip2int (quadStr A B C D) = ((A * 256 + B) * 256 + C) * 256 + D := by
  unfold ip2int
  rw [splitOnChar_quadStr]
  rw [List.foldl_cons, List.foldl_cons, List.foldl_cons, List.foldl_cons,
    List.foldl_nil]
  rw [parseIntNat_natToStr, parseIntNat_natToStr, parseIntNat_natToStr,
    parseIntNat_natToStr]
  have h0 : jsShl32 0 8 = 0 := by decide
  rw [h0, zero_add]
  have hA2 : jsShl32 ((A : Int)) 8 = (A : Int) * 256 := by
    unfold jsShl32
    rw [show (((2 ^ ((8:Nat) % 32) : Nat)) : Int) = 256 from by norm_num]
    exact toInt32_small (by omega) (by omega)
  rw [hA2]
  have hB2 : jsShl32 ((A : Int) * 256 + B) 8 = ((A : Int) * 256 + B) * 256 := by
    unfold jsShl32
    rw [show (((2 ^ ((8:Nat) % 32) : Nat)) : Int) = 256 from by norm_num]
    exact toInt32_small (by omega) (by omega)
  rw [hB2]
  unfold jsShl32
  rw [show (((2 ^ ((8:Nat) % 32) : Nat)) : Int) = 256 from by norm_num]
  rw [uint32_toInt32_add]
  rw [show (((A : Int) * 256 + B) * 256 + C) * 256 + D
      = (((((A * 256 + B) * 256 + C) * 256 + D : Nat)) : Int) from by push_cast; ring]
  rw [uint32_natCast (by omega)]

theorem ip2int_lt (ip : Str) : ip2int ip < 4294967296 := by
  unfold ip2int
  exact uint32_lt _

theorem expandStartStop_eq {l r : Str} (hl : isQuadStr l = true)
    (hr : isQuadStr r = true) :
    expandStartStop (l ++ '-' :: r) =
      (List.range' (ip2int l) (ip2int r + 1 - ip2int l)).map
        (fun i => int2ip ((i : Nat) : Int)) := by
  simp only [expandStartStop]
  rw [splitOnChar_append _ (not_mem_quad hl (by decide) (by decide)),
    splitOnChar_of_not_mem (not_mem_quad hr (by decide) (by decide))]
  simp only [List.headD_cons, List.drop_succ_cons, List.drop_zero]
  unfold intRangeIncl
  rw [List.range'_eq_map_range, List.map_map, List.map_map]
  have hlen : ((ip2int r : Int) + 1 - (ip2int l : Int)).toNat
      = ip2int r + 1 - ip2int l := by omega
  rw [hlen]
  apply List.map_congr_left
  intro k hk
  show int2ip ((ip2int l : Int) + Int.ofNat k) = int2ip (((ip2int l + k : Nat)) : Int)
  apply int2ip_congr
  rw [show ((ip2int l : Int)) + Int.ofNat k = ((ip2int l + k : Nat) : Int) from by
    rw [show Int.ofNat k = ((k : Nat) : Int) from rfl]
    push_cast
    ring]

theorem map_int2ip_cong {f g : Nat → Int} (l : List Nat)
    (h : ∀ k, uint32 (f k) = uint32 (g k)) :
    (l.map f).map int2ip = l.map (fun k => int2ip (g k)) := by
  induction l with
  | nil => rfl
  | cons a t ih =>
    rw [List.map_cons, List.map_cons, List.map_cons, ih, int2ip_congr (h a)]

theorem expandCIDR_eq {q : Str} {P : Nat} (hq : isQuadStr q = true)
    (hP1 : 1 ≤ P) (hP2 : P ≤ 32) :
    expandCIDR (q ++ '/' :: natToStr P) =
      (List.range (2 ^ (32 - P))).map
        (fun k => int2ip ((((ip2int q / 2 ^ (32 - P) * 2 ^ (32 - P) + k : Nat)) : Int))) := by
  have hq_noslash : '/' ∉ q := not_mem_quad hq (by decide) (by decide)
  simp only [expandCIDR]
  rw [splitOnChar_append _ hq_noslash,
    splitOnChar_of_not_mem (not_mem_natToStr (by decide) P)]
  simp only [List.headD_cons, List.drop_succ_cons, List.drop_zero]
  rw [numberNat_natToStr, subnetMask_eq hP1 hP2]
  set s := 32 - P with hs
  have hult : ip2int q < 4294967296 := ip2int_lt q
  have hand : jsAnd32 ((ip2int q : Int)) (-(((2 ^ s : Nat)) : Int)) =
      toInt32 ((((ip2int q / 2 ^ s * 2 ^ s : Nat)) : Int)) := by
    unfold jsAnd32
    rw [show uint32 ((ip2int q : Int)) = ip2int q from uint32_natCast hult]
    rw [uint32_neg_pow (by omega)]
    rw [land_mask s hult (by omega)]
    rfl
  rw [hand]
  set net := ip2int q / 2 ^ s * 2 ^ s with hnet
  have hdvd : (2 ^ s : Nat) ∣ 4294967296 := by
    have h32 : (4294967296 : Nat) = 2 ^ 32 := by norm_num
    rw [h32]
    exact pow_dvd_pow 2 (by omega)
  have hnetle : net + 2 ^ s ≤ 4294967296 := by
    have hlt : ip2int q / 2 ^ s < 4294967296 / 2 ^ s :=
      Nat.div_lt_div_of_lt_of_dvd hdvd hult
    have h2 : net ≤ (4294967296 / 2 ^ s - 1) * 2 ^ s := by
      rw [hnet]
      exact Nat.mul_le_mul_right _ (by omega)
    have h3 : (4294967296 / 2 ^ s - 1) * 2 ^ s = 4294967296 - 2 ^ s := by
      rw [Nat.sub_mul, one_mul, Nat.div_mul_cancel hdvd]
    have h4 : 2 ^ s ≤ 4294967296 := Nat.le_of_dvd (by norm_num) hdvd
    calc net + 2 ^ s ≤ (4294967296 / 2 ^ s - 1) * 2 ^ s + 2 ^ s :=
          Nat.add_le_add_right h2 _
      _ = (4294967296 - 2 ^ s) + 2 ^ s := by rw [h3]
      _ = 4294967296 := by omega
  unfold intRangeIncl
  have hlen : ((((2 ^ s : Nat)) : Int) + toInt32 (((net : Nat)) : Int) - 1 + 1
      - toInt32 (((net : Nat)) : Int)).toNat = 2 ^ s := by
    rw [show ((((2 ^ s : Nat)) : Int) + toInt32 (((net : Nat)) : Int) - 1 + 1
        - toInt32 (((net : Nat)) : Int)) = (((2 ^ s : Nat)) : Int) from by ring]
    omega
  rw [hlen]
  exact map_int2ip_cong (List.range (2 ^ s)) (fun k => by
    rw [uint32_toInt32_add]
    rw [show ((net : Int)) + Int.ofNat k = ((net + k : Nat) : Int) from by
      rw [show Int.ofNat k = ((k : Nat) : Int) from rfl]
      push_cast
      ring])

/-! ## Construction lemmas for the grammars -/

theorem contains_eq_false_of_not_mem {l : Str} {c : Char} (h : c ∉ l) :
    l.contains c = false := by
  simpa using h

theorem isStartStopStr_mk {l r : Str} (hl : isQuadStr l = true)
    (hr : isQuadStr r = true) : isStartStopStr (l ++ '-' :: r) = true := by
  unfold isStartStopStr
  rw [splitOnChar_append _ (not_mem_quad hl (by decide) (by decide)),
    splitOnChar_of_not_mem (not_mem_quad hr (by decide) (by decide))]
  show (isQuadStr l && isQuadStr r) = true
  rw [hl, hr]
  rfl

theorem isCidrTokStr_mk {q p : Str} (hq : isQuadStr q = true)
    (hp : isCidrPrefixStr p = true) (hps : '/' ∉ p) :
    isCidrTokStr (q ++ '/' :: p) = true := by
  unfold isCidrTokStr
  rw [splitOnChar_append _ (not_mem_quad hq (by decide) (by decide)),
    splitOnChar_of_not_mem hps]
  show (isQuadStr q && List.all [p] isCidrPrefixStr) = true
  rw [hq]
  simp [hp]

theorem isQuadOrCidrStr_mk {q p : Str} (hq : isQuadStr q = true)
    (hp : isCidrPrefixStr p = true) (hps : '/' ∉ p) :
    isQuadOrCidrStr (q ++ '/' :: p) = true := by
  unfold isQuadOrCidrStr
  rw [splitOnChar_append _ (not_mem_quad hq (by decide) (by decide)),
    splitOnChar_of_not_mem hps]
  show (isQuadStr q && isCidrPrefixStr p) = true
  rw [hq, hp]
  rfl

theorem isQuadOrCidrStr_of_quad {q : Str} (hq : isQuadStr q = true) :
    isQuadOrCidrStr q = true := by
  unfold isQuadOrCidrStr
  rw [splitOnChar_of_not_mem (not_mem_quad hq (by decide) (by decide))]
  exact hq

theorem isAnyMatch_of_quad {q : Str} (hq : isQuadStr q = true) :
    isAnyMatch q = true := by
  unfold isAnyMatch
  rw [isQuadOrCidrStr_of_quad hq]
  simp

theorem isAnyMatch_cidr {q p : Str} (hq : isQuadStr q = true)
    (hp : isCidrPrefixStr p = true) (hps : '/' ∉ p) :
    isAnyMatch (q ++ '/' :: p) = true := by
  unfold isAnyMatch
  rw [isQuadOrCidrStr_mk hq hp hps]
  simp

theorem isAnyMatch_startstop {l r : Str} (hl : isQuadStr l = true)
    (hr : isQuadStr r = true) : isAnyMatch (l ++ '-' :: r) = true := by
  unfold isAnyMatch
  rw [isStartStopStr_mk hl hr]
  simp

theorem isAnyMatch_of_hyphenTok {s : Str} (h : isHyphenTokStr s = true) :
    isAnyMatch s = true := by
  unfold isAnyMatch
  rw [h]
  simp

theorem cidrTok_count_dot_three {q : Str} (hq : isQuadStr q = true) (P : Nat) :
    (q ++ '/' :: natToStr P).count '.' = 3 := by
  have hz : (natToStr P).count '.' = 0 :=
    List.count_eq_zero.mpr (not_mem_natToStr (by decide) P)
  rw [List.count_append, quad_count_dot hq, List.count_cons, hz]
  simp

/-! ## Dispatch of `processToken` -/

theorem processToken_startstop {s : Str} (h : isStartStopStr s = true) :
    processToken s = expandStartStop s := by
  unfold processToken
  rw [testStartStop_of_self h]
  simp

theorem processToken_cidr {s : Str} (hdots : s.count '.' < 6)
    (hc : isCidrTokStr s = true) : processToken s = expandCIDR s := by
  unfold processToken
  rw [testStartStop_false_of_dots hdots, testCIDR_of_self hc]
  simp

theorem processToken_hyphen {s : Str} (hdots : s.count '.' < 6)
    (hnoslash : '/' ∉ s) (hnq : isQuadStr s = false)
    (hh : isHyphenTokStr s = true) : processToken s = expandHyphen s := by
  unfold processToken
  rw [testStartStop_false_of_dots hdots, testCIDR_false_of_no_slash hnoslash,
    testHyphen_of_self hh]
  unfold testSingleIP
  rw [hnq]
  simp

/-! ## `replaceFirst` when the only occurrence is the trailing token -/

theorem replaceFirst_cons_neg {c : Char} {cs pat : Str}
    (h : pat.isPrefixOf (c :: cs) = false) :
    replaceFirst (c :: cs) pat = c :: replaceFirst cs pat := by
  conv_lhs => unfold replaceFirst
  rw [h, if_neg Bool.false_ne_true]

theorem replaceFirst_self {t : Str} (hne : t ≠ []) : replaceFirst t t = [] := by
  cases t with
  | nil => exact absurd rfl hne
  | cons c cs =>
    unfold replaceFirst
    rw [show (c :: cs).isPrefixOf (c :: cs) = true by simp [List.isPrefixOf_iff_prefix]]
    simp

theorem replaceFirst_trailing {p t : Str} (hne : t ≠ [])
    (h : ∀ i, i < (p ++ [' ']).length →
      t.isPrefixOf ((p ++ ' ' :: t).drop i) = false) :
    replaceFirst (p ++ ' ' :: t) t = p ++ [' '] := by
  induction p with
  | nil =>
    have h0 := h 0 (by simp)
    simp only [List.nil_append, List.drop_zero] at h0
    rw [List.nil_append, replaceFirst_cons_neg h0, replaceFirst_self hne]
    rfl
  | cons a p' ih =>
    have h0 := h 0 (by simp)
    simp only [List.drop_zero, List.cons_append] at h0
    rw [List.cons_append, replaceFirst_cons_neg h0]
    rw [ih (fun i hi => ?_)]
    · rfl
    · have := h (i + 1) (by simp at hi ⊢; omega)
      rwa [List.cons_append, List.drop_succ_cons] at this

/-! ## The per-octet fields of the spec and the code's `octetList` -/

theorem spec_field_no_dot (f : SpecOctetField) : '.' ∉ f.text := by
  cases f with
  | bare n => exact not_mem_natToStr (by decide) n
  | rng a b =>
    intro hm
    rcases mem_pair_parts hm with h | h | h
    · exact not_mem_natToStr (by decide) a h
    · exact not_mem_natToStr (by decide) b h
    · exact absurd h (by decide)

theorem spec_field_no_slash (f : SpecOctetField) : '/' ∉ f.text := by
  cases f with
  | bare n => exact not_mem_natToStr (by decide) n
  | rng a b =>
    intro hm
    rcases mem_pair_parts hm with h | h | h
    · exact not_mem_natToStr (by decide) a h
    · exact not_mem_natToStr (by decide) b h
    · exact absurd h (by decide)

theorem spec_field_hyph_mem {f : SpecOctetField} (h : f.hyph = true) :
    '-' ∈ f.text := by
  cases f with
  | bare n => exact Bool.noConfusion h
  | rng a b => exact List.mem_append_right _ (List.mem_cons_self _ _)

theorem isHyphenFieldStr_of_ok (f : SpecOctetField) (h : f.ok) :
    isHyphenFieldStr f.text = true := by
  cases f with
  | bare n =>
    unfold isHyphenFieldStr SpecOctetField.text
    rw [splitOnChar_of_not_mem (not_mem_natToStr (by decide) n)]
    exact isOctetStr_natToStr n (by exact Nat.lt_succ_of_le h)
  | rng a b =>
    obtain ⟨ha, hb, -⟩ := h
    unfold isHyphenFieldStr SpecOctetField.text
    rw [splitOnChar_append _ (not_mem_natToStr (by decide) a),
      splitOnChar_of_not_mem (not_mem_natToStr (by decide) b)]
    show (isOctetStr (natToStr a) && isOctetStr (natToStr b)) = true
    rw [isOctetStr_natToStr a (by omega), isOctetStr_natToStr b (by omega)]
    rfl

theorem splitOnChar_specTok (fa fb fc fd : SpecOctetField) :
    splitOnChar '.' (specHyphenTok fa fb fc fd) =
      [fa.text, fb.text, fc.text, fd.text] := by
  unfold specHyphenTok
  rw [show fa.text ++ '.' :: fb.text ++ '.' :: fc.text ++ '.' :: fd.text
      = fa.text ++ '.' :: (fb.text ++ '.' :: (fc.text ++ '.' :: fd.text))
      by simp]
  rw [splitOnChar_append _ (spec_field_no_dot fa),
    splitOnChar_append _ (spec_field_no_dot fb),
    splitOnChar_append _ (spec_field_no_dot fc),
    splitOnChar_of_not_mem (spec_field_no_dot fd)]

theorem isHyphenTokStr_of_spec (fa fb fc fd : SpecOctetField)
    (ha : fa.ok) (hb : fb.ok) (hc : fc.ok) (hd : fd.ok) :
    isHyphenTokStr (specHyphenTok fa fb fc fd) = true := by
  unfold isHyphenTokStr
  rw [splitOnChar_specTok]
  show (isHyphenFieldStr fa.text && isHyphenFieldStr fb.text &&
    isHyphenFieldStr fc.text && isHyphenFieldStr fd.text) = true
  rw [isHyphenFieldStr_of_ok fa ha, isHyphenFieldStr_of_ok fb hb,
    isHyphenFieldStr_of_ok fc hc, isHyphenFieldStr_of_ok fd hd]
  rfl

theorem specTok_count_dot (fa fb fc fd : SpecOctetField) :
    (specHyphenTok fa fb fc fd).count '.' = 3 := by
  have h0 : ∀ f : SpecOctetField, f.text.count '.' = 0 := fun f =>
    List.count_eq_zero.mpr (spec_field_no_dot f)
  unfold specHyphenTok
  simp only [List.count_append, List.count_cons_self, h0]

theorem specTok_no_slash (fa fb fc fd : SpecOctetField) :
    '/' ∉ specHyphenTok fa fb fc fd := by
  intro hm
  unfold specHyphenTok at hm
  rcases mem_quad_parts hm with h | h | h | h | h
  · exact spec_field_no_slash fa h
  · exact spec_field_no_slash fb h
  · exact spec_field_no_slash fc h
  · exact spec_field_no_slash fd h
  · exact absurd h (by decide)

theorem specTok_has_hyphen {fa fb fc fd : SpecOctetField}
    (hh : (fa.hyph || fb.hyph || fc.hyph || fd.hyph) = true) :
    '-' ∈ specHyphenTok fa fb fc fd := by
  unfold specHyphenTok
  simp only [Bool.or_eq_true] at hh
  simp only [List.mem_append, List.mem_cons]
  rcases hh with ((h | h) | h) | h <;>
    have hm := spec_field_hyph_mem h <;> tauto

theorem quad_false_of_hyphen {s : Str} (h : '-' ∈ s) : isQuadStr s = false := by
  cases hq : isQuadStr s with
  | false => rfl
  | true => exact absurd h (not_mem_quad hq (by decide) (by decide))

theorem intToStr_natCast (n : Nat) : intToStr ((n : Nat) : Int) = natToStr n := by
  unfold intToStr
  rw [if_neg (by omega)]
  rw [Int.toNat_natCast]

theorem octetList_spec (f : SpecOctetField) (h : f.ok) :
    octetList f.text = f.ascList.map (fun n => ((n : Nat) : Int)) := by
  cases f with
  | bare n =>
    unfold octetList SpecOctetField.text SpecOctetField.ascList
    rw [contains_eq_false_of_not_mem (not_mem_natToStr (by decide) n),
      if_neg Bool.false_ne_true, numberNat_natToStr]
    rfl
  | rng a b =>
    obtain ⟨ha, hb, hab⟩ := h
    unfold octetList SpecOctetField.text SpecOctetField.ascList
    have hcont : (natToStr a ++ '-' :: natToStr b).contains '-' = true := by
      have hm : '-' ∈ natToStr a ++ '-' :: natToStr b :=
        List.mem_append_right _ (List.mem_cons_self _ _)
      exact List.elem_eq_true_of_mem hm
    rw [hcont, if_pos rfl]
    rw [splitOnChar_append _ (not_mem_natToStr (by decide) a),
      splitOnChar_of_not_mem (not_mem_natToStr (by decide) b)]
    simp only [List.headD_cons, List.drop_succ_cons, List.drop_zero]
    rw [numberNat_natToStr, numberNat_natToStr]
    unfold lodashRange
    rw [if_pos (by omega)]
    rw [show (((b : Nat) : Int) + 1 - ((a : Nat) : Int)).toNat = b + 1 - a from by omega]
    rw [List.range'_eq_map_range, List.map_map]
    apply List.map_congr_left
    intro k hk
    show ((a : Nat) : Int) + Int.ofNat k = (((a + k : Nat)) : Int)
    rw [show Int.ofNat k = ((k : Nat) : Int) from rfl]
    push_cast
    ring

theorem flatMap_map_eq {α β γ : Type} (f : α → β) {g : β → List γ}
    {h2 : α → List γ} (hfg : ∀ a, g (f a) = h2 a) :
    ∀ l : List α, (l.map f).flatMap g = l.flatMap h2 := by
  intro l
  induction l with
  | nil => rfl
  | cons x t ih => rw [List.map_cons, List.flatMap_cons, List.flatMap_cons, ih, hfg]

theorem map_map_eq {α β γ : Type} (f : α → β) {g : β → γ} {h2 : α → γ}
    (hfg : ∀ a, g (f a) = h2 a) :
    ∀ l : List α, (l.map f).map g = l.map h2 := by
  intro l
  induction l with
  | nil => rfl
  | cons x t ih => rw [List.map_cons, List.map_cons, List.map_cons, ih, hfg]

theorem expandHyphen_spec (fa fb fc fd : SpecOctetField)
    (ha : fa.ok) (hb : fb.ok) (hc : fc.ok) (hd : fd.ok) :
    expandHyphen (specHyphenTok fa fb fc fd) = specHyphenExpand fa fb fc fd := by
  unfold expandHyphen
  rw [splitOnChar_specTok]
  simp only [List.headD_cons, List.drop_succ_cons, List.drop_zero]
  rw [octetList_spec fa ha, octetList_spec fb hb, octetList_spec fc hc,
    octetList_spec fd hd]
  unfold specHyphenExpand
  refine flatMap_map_eq _ (fun a => ?_) _
  refine flatMap_map_eq _ (fun b => ?_) _
  refine flatMap_map_eq _ (fun c => ?_) _
  refine map_map_eq _ (fun d => ?_) _
  rw [intToStr_natCast, intToStr_natCast, intToStr_natCast, intToStr_natCast]

/-! ## Report-synthesizer lemmas -/

theorem sInsert_perm (x : Str) (l : List Str) :
    List.Perm (sInsert x l) (x :: l) := by
  induction l with
  | nil => exact List.Perm.refl _
  | cons y t ih =>
    unfold sInsert
    by_cases h : numberNat y < numberNat x
    · rw [if_pos h]
      exact (ih.cons y).trans (List.Perm.swap x y t)
    · rw [if_neg h]

theorem stableSort_perm (l : List Str) : List.Perm (stableSort l) l := by
  induction l with
  | nil => exact List.Perm.refl _
  | cons x t ih => exact (sInsert_perm x (stableSort t)).trans (ih.cons x)

theorem sInsert_sorted {x : Str} {l : List Str}
    (h : l.Pairwise (fun a b => numberNat a ≤ numberNat b)) :
    (sInsert x l).Pairwise (fun a b => numberNat a ≤ numberNat b) := by
  induction l with
  | nil => simp [sInsert]
  | cons y t ih =>
    rcases List.pairwise_cons.mp h with ⟨hy, ht⟩
    unfold sInsert
    by_cases hc : numberNat y < numberNat x
    · rw [if_pos hc]
      refine List.pairwise_cons.mpr ⟨?_, ih ht⟩
      intro z hz
      rcases List.mem_cons.mp ((sInsert_perm x t).mem_iff.mp hz) with hz' | hz'
      · subst hz'; omega
      · exact hy z hz'
    · rw [if_neg hc]
      refine List.pairwise_cons.mpr ⟨?_, h⟩
      intro z hz
      rcases List.mem_cons.mp hz with hz' | hz'
      · subst hz'; omega
      · have := hy z hz'
        omega

theorem stableSort_sorted (l : List Str) :
    (stableSort l).Pairwise (fun a b => numberNat a ≤ numberNat b) := by
  induction l with
  | nil => exact List.Pairwise.nil
  | cons x t ih => exact sInsert_sorted ih

theorem scanStep_included {ps : Bool} {tl : List Str} {m : HostRecord}
    (hm : includedB tl m = true) (n : Nat) (s : Str) :
    scanStep ps tl (n, s) m = (n + 1, s ++ hostBlock ps m) := by
  unfold scanStep
  rw [hm, if_pos rfl]

theorem scanStep_excluded {ps : Bool} {tl : List Str} {m : HostRecord}
    (hm : includedB tl m = false) (n : Nat) (s : Str) :
    scanStep ps tl (n, s) m = (n, s) := by
  unfold scanStep
  rw [hm, if_neg Bool.false_ne_true]

theorem scanFold (ps : Bool) (tl : List Str) :
    ∀ (data : List HostRecord) (n : Nat) (s : Str),
      data.foldl (scanStep ps tl) (n, s)
        = (n + (data.filter (includedB tl)).length,
           s ++ (data.filter (includedB tl)).flatMap (hostBlock ps)) := by
  intro data
  induction data with
  | nil =>
    intro n s
    simp
  | cons m rest ih =>
    intro n s
    rw [List.foldl_cons]
    cases hm : includedB tl m with
    | true =>
      rw [scanStep_included hm, ih, List.filter_cons_of_pos hm,
        List.length_cons, List.flatMap_cons]
      simp only [Prod.mk.injEq]
      exact ⟨by omega, by rw [List.append_assoc]⟩
    | false =>
      rw [scanStep_excluded hm, ih, List.filter_cons_of_neg]
      rw [Bool.not_eq_true, hm]

theorem includedB_iff (tl : List Str) (m : HostRecord) :
    includedB tl m = true ↔ m.IP ∈ tl ∧
      ¬(m.PortsOpen = [] ∧ m.PortsClosed = [] ∧ m.PortsFiltered = []) := by
  simp only [includedB, Bool.and_eq_true, Bool.or_eq_true, Bool.not_eq_true',
    List.elem_iff, List.isEmpty_eq_false]
  constructor
  · rintro ⟨hmem, h⟩
    refine ⟨hmem, ?_⟩
    rintro ⟨ho, hc, hf⟩
    rcases h with (h | h) | h
    · exact h hc
    · exact h hf
    · exact h ho
  · rintro ⟨hmem, h⟩
    refine ⟨hmem, ?_⟩
    by_cases ho : m.PortsOpen = []
    · by_cases hc : m.PortsClosed = []
      · by_cases hf : m.PortsFiltered = []
        · exact absurd ⟨ho, hc, hf⟩ h
        · exact Or.inl (Or.inr hf)
      · exact Or.inl (Or.inl hc)
    · exact Or.inr ho

theorem createPortScanResults_eq (data : List HostRecord) (cmd : Str) :
    createPortScanResults data cmd =
      headerStr ++
        (data.filter (includedB (ListIPAddresses cmd))).flatMap
          (hostBlock (pingScanB cmd)) ++
        trailerStr (ListIPAddresses cmd).length
          ((data.filter (includedB (ListIPAddresses cmd))).length) := by
  simp only [createPortScanResults]
  rw [scanFold]
  simp

/-! # The claims -/

/-- Claim C1, corrected: the CIDR prefix grammar
`([4-9]|(3[0-2]?)|(2[0-9]?)|(1[0-9]?))` accepts every prefix length in 1–32
(the `?` makes the bare digits `1`, `2`, `3` match), not only 4–32.  For a
valid dotted-quad `q` and `1 ≤ P ≤ 32`, the trailing token `q/P` is matched
and dispatched to the CIDR branch; for `P = 0` or `P ≥ 33` no suffix of the
command matches any grammar, so the loop halts silently with no addresses. -/
theorem claim_C1 {q : Str} (hq : isQuadStr q = true) (P : Nat) (X : Str) :
    (1 ≤ P ∧ P ≤ 32 →
      jsMatchTail (X ++ ' ' :: (q ++ '/' :: natToStr P))
          = some (q ++ '/' :: natToStr P) ∧
      processToken (q ++ '/' :: natToStr P)
          = expandCIDR (q ++ '/' :: natToStr P)) ∧
    (P = 0 ∨ 33 ≤ P →
      jsMatchTail (X ++ '/' :: natToStr P) = none ∧
      ListIPAddresses (X ++ '/' :: natToStr P) = []) := by
  constructor
  · rintro ⟨hP1, hP2⟩
    have hp : isCidrPrefixStr (natToStr P) = true := by
      rw [isCidrPrefixStr_natToStr]
      simp only [decide_eq_true_eq]
      exact ⟨hP1, hP2⟩
    have hslash : '/' ∉ natToStr P := not_mem_natToStr (by decide) P
    refine ⟨jsMatchTail_after_space (isAnyMatch_cidr hq hp hslash), ?_⟩
    exact processToken_cidr (by rw [cidrTok_count_dot_three hq]; omega)
      (isCidrTokStr_mk hq hp hslash)
  · intro hPbad
    have hbad : isCidrPrefixStr (natToStr P) = false := by
      rw [isCidrPrefixStr_natToStr]
      exact decide_eq_false (by rintro ⟨h1, h2⟩; rcases hPbad with h | h <;> omega)
    exact ⟨jsMatchTail_badP hbad, ListIPAddresses_none (jsMatchTail_badP hbad)⟩

/-- Claim C1 counterexample: prefix length 1 lies outside the claimed 4–32
range, yet the token `10.0.0.0/1` is in the CIDR grammar and is matched as
the trailing token of a command — refuting the original claim that such a
token matches no grammar and contributes no addresses. -/
theorem claim_C1_counterexample :
    isCidrTokStr (("10.0.0.0/1").data) = true ∧
    jsMatchTail (("nmap 10.0.0.0/1").data) = some (("10.0.0.0/1").data) := by
  decide

theorem claim_C1_witness :
    (jsMatchTail (("nmap").data ++ ' ' :: (("10.0.0.0").data ++ '/' :: natToStr 1))
        = some (("10.0.0.0").data ++ '/' :: natToStr 1) ∧
     processToken (("10.0.0.0").data ++ '/' :: natToStr 1)
        = expandCIDR (("10.0.0.0").data ++ '/' :: natToStr 1)) ∧
    (jsMatchTail (("nmap 10.0.0.0").data ++ '/' :: natToStr 0) = none ∧
     ListIPAddresses (("nmap 10.0.0.0").data ++ '/' :: natToStr 0) = []) :=
  ⟨(@claim_C1 (("10.0.0.0").data) (by decide) 1 (("nmap").data)).1
      ⟨by decide, by decide⟩,
   (@claim_C1 (("10.0.0.0").data) (by decide) 0 (("nmap 10.0.0.0").data)).2
      (Or.inl rfl)⟩

/-- Claim C2, code bug: the source resolves a port line's state by substring
containment (`String.includes`) against the raw category strings, not by
membership of the port value in the category.  Port `8`, recorded only as
open, is reported `filtered` because `"8"` is a substring of the filtered
entry `"80"`, although `"8"` is not an element of the filtered list — the
spec's design note calls this behaviour a defect. -/
theorem claim_C2 :
    jsIncludes (("80").data) (("8").data) = true ∧
    (("8").data) ∉ splitOnChar ' ' (("80").data) ∧
    portLine ⟨("1.1.1.1").data, ("8").data, [], ("80").data, ("0.1").data⟩
        (("8").data)
      = ("8/tcp  filtered \r\n").data := by
  decide

/-- Claim C3, corrected: the port lines of a host are driven by
`sortedports`, the stable numeric sort of ALL entries of the space-joined
category lists.  The entries are a permutation of the joined split — so a
port value present in two categories is kept twice and yields two lines,
with no deduplication — and the order is ascending by `Number` value but
not strictly (duplicates are adjacent). -/
theorem claim_C3 (m : HostRecord) :
    List.Perm (sortedportsOf m) (splitOnChar ' ' (allportsOf m)) ∧
    List.Pairwise (fun a b => numberNat a ≤ numberNat b) (sortedportsOf m) := by
  exact ⟨stableSort_perm _, stableSort_sorted _⟩

/-- Claim C3 counterexample: a host with port 80 both open and filtered
produces TWO `80/tcp` lines, refuting the original claim of exactly one
line per distinct port value (and of a strictly ascending order). -/
theorem claim_C3_counterexample :
    hostBlock false
        ⟨("1.1.1.1").data, ("80").data, [], ("80").data, ("0.1").data⟩
      = ("Nmap scan report for 1.1.1.1\r\nHost it up (0.1s latency).\r\nPORT         STATE    SERVICE\r\n80/tcp  filtered \r\n80/tcp  filtered \r\n\r\n").data := by
  decide

/-- Claim C4, corrected: `String.replace` removes the FIRST occurrence of
the matched trailing text, not the trailing occurrence.  When the matched
token's text does not occur before the tail, one iteration removes exactly
the trailing token and the space before it: parsing `p ++ " " ++ t` yields
the expansion of `t` followed by the parse of the trimmed prefix `p`. -/
theorem claim_C4 {p t : Str} (ht : isAnyMatch t = true)
    (hocc : ∀ i, i < (p ++ [' ']).length →
      t.isPrefixOf ((p ++ ' ' :: t).drop i) = false) :
    ListIPAddresses (p ++ ' ' :: t)
      = processToken t ++ ListIPAddresses (jsTrim p) := by
  rw [ListIPAddresses_step (jsMatchTail_after_space ht)]
  have hne : t ≠ [] := by
    intro he
    rw [he, anyMatch_nil_false] at ht
    exact Bool.noConfusion ht
  rw [replaceFirst_trailing hne hocc, jsTrim_append_ws (by decide)]

/-- Claim C4 counterexample: in `1.2.3.4x 1.2.3.4` the trailing token
`1.2.3.4` also occurs earlier.  The replace step removes the EARLIER
occurrence, leaving `x 1.2.3.4`, whose tail matches again — the same token
text is expanded twice.  Removing the trailing occurrence, as originally
claimed, would leave `1.2.3.4x`, whose tail matches nothing, giving one
address. -/
theorem claim_C4_counterexample :
    replaceFirst (("1.2.3.4x 1.2.3.4").data) (("1.2.3.4").data)
        = ("x 1.2.3.4").data ∧
    ListIPAddresses (("1.2.3.4x 1.2.3.4").data)
        = [("1.2.3.4").data, ("1.2.3.4").data] := by
  decide

theorem claim_C4_witness :
    isAnyMatch (("1.2.3.4").data) = true ∧
    ListIPAddresses (("nmap -p").data ++ ' ' :: ("1.2.3.4").data)
      = processToken (("1.2.3.4").data)
        ++ ListIPAddresses (jsTrim (("nmap -p").data)) :=
  ⟨by decide, claim_C4 (by decide) (by decide)⟩

/-- Claim C5, confirmed: a start-stop token built from two valid quads is
dispatched to the start-stop branch; it expands to the ascending inclusive
integer range from `ip2int` of the left quad to `ip2int` of the right quad,
each value rendered by `int2ip`, and the expansion is empty when the end is
below the start. -/
theorem claim_C5 {l r : Str} (hl : isQuadStr l = true) (hr : isQuadStr r = true) :
    processToken (l ++ '-' :: r) = expandStartStop (l ++ '-' :: r) ∧
    expandStartStop (l ++ '-' :: r)
      = (List.range' (ip2int l) (ip2int r + 1 - ip2int l)).map
          (fun i => int2ip ((i : Nat) : Int)) ∧
    (ip2int r < ip2int l → expandStartStop (l ++ '-' :: r) = []) := by
  refine ⟨processToken_startstop (isStartStopStr_mk hl hr),
    expandStartStop_eq hl hr, ?_⟩
  intro hlt
  rw [expandStartStop_eq hl hr,
    show ip2int r + 1 - ip2int l = 0 from by omega]
  rfl

theorem claim_C5_witness :
    (processToken (("10.0.0.2").data ++ '-' :: ("10.0.0.2").data)
        = expandStartStop (("10.0.0.2").data ++ '-' :: ("10.0.0.2").data)) ∧
    expandStartStop (("10.0.0.5").data ++ '-' :: ("10.0.0.3").data) = [] ∧
    expandStartStop (("10.0.0.2-10.0.0.2").data) = [("10.0.0.2").data] :=
  ⟨(@claim_C5 (("10.0.0.2").data) (("10.0.0.2").data) (by decide) (by decide)).1,
   (@claim_C5 (("10.0.0.5").data) (("10.0.0.3").data) (by decide) (by decide)).2.2
      (by decide),
   by decide⟩

/-- Claim C6, confirmed: an accepted CIDR token `q/P` is dispatched to the
CIDR branch; the expansion masks the base address down to the network
boundary (`ip2int q / 2^(32-P) * 2^(32-P)`) and enumerates, ascending,
exactly `2^(32-P)` consecutive addresses from that network address, each
rendered by `int2ip` — including for base addresses with the high bit set,
since the loop bounds are computed in signed 32-bit arithmetic on both
sides. -/
theorem claim_C6 {q : Str} {P : Nat} (hq : isQuadStr q = true)
    (hP1 : 1 ≤ P) (hP2 : P ≤ 32) :
    processToken (q ++ '/' :: natToStr P) = expandCIDR (q ++ '/' :: natToStr P) ∧
    expandCIDR (q ++ '/' :: natToStr P)
      = (List.range (2 ^ (32 - P))).map
          (fun k => int2ip
            (((ip2int q / 2 ^ (32 - P) * 2 ^ (32 - P) + k : Nat)) : Int)) ∧
    (expandCIDR (q ++ '/' :: natToStr P)).length = 2 ^ (32 - P) := by
  have hp : isCidrPrefixStr (natToStr P) = true := by
    rw [isCidrPrefixStr_natToStr]
    simp only [decide_eq_true_eq]
    exact ⟨hP1, hP2⟩
  have hslash : '/' ∉ natToStr P := not_mem_natToStr (by decide) P
  refine ⟨processToken_cidr (by rw [cidrTok_count_dot_three hq]; omega)
    (isCidrTokStr_mk hq hp hslash), expandCIDR_eq hq hP1 hP2, ?_⟩
  rw [expandCIDR_eq hq hP1 hP2, List.length_map, List.length_range]

theorem claim_C6_witness :
    (processToken (("10.0.0.0").data ++ '/' :: natToStr 30)
        = expandCIDR (("10.0.0.0").data ++ '/' :: natToStr 30) ∧
     expandCIDR (("10.0.0.0").data ++ '/' :: natToStr 30)
        = (List.range (2 ^ (32 - 30))).map
            (fun k => int2ip
              (((ip2int (("10.0.0.0").data) / 2 ^ (32 - 30) * 2 ^ (32 - 30)
                + k : Nat)) : Int)) ∧
     (expandCIDR (("10.0.0.0").data ++ '/' :: natToStr 30)).length
        = 2 ^ (32 - 30)) ∧
    expandCIDR (("10.0.0.0/30").data)
      = [("10.0.0.0").data, ("10.0.0.1").data,
         ("10.0.0.2").data, ("10.0.0.3").data] ∧
    expandCIDR (("128.0.0.0/30").data)
      = [("128.0.0.0").data, ("128.0.0.1").data,
         ("128.0.0.2").data, ("128.0.0.3").data] :=
  ⟨@claim_C6 (("10.0.0.0").data) 30 (by decide) (by decide) (by decide),
   by decide, by decide⟩

/-- Claim C7, corrected: a per-octet token whose four fields are bare octets
or ORDERED hyphen ranges (low ≤ high), with at least one hyphenated field
(so the token is not a plain quad and reaches this grammar), expands to the
octet-major cartesian product of the ascending per-field lists.  For a
reversed range the code instead produces a descending lodash range that
omits the low end — see the counterexample. -/
theorem claim_C7 (fa fb fc fd : SpecOctetField)
    (ha : fa.ok) (hb : fb.ok) (hc : fc.ok) (hd : fd.ok)
    (hh : (fa.hyph || fb.hyph || fc.hyph || fd.hyph) = true) :
    processToken (specHyphenTok fa fb fc fd) = specHyphenExpand fa fb fc fd := by
  rw [processToken_hyphen (by rw [specTok_count_dot]; omega)
      (specTok_no_slash fa fb fc fd)
      (quad_false_of_hyphen (specTok_has_hyphen hh))
      (isHyphenTokStr_of_spec fa fb fc fd ha hb hc hd)]
  exact expandHyphen_spec fa fb fc fd ha hb hc hd

/-- Claim C7 counterexample: the reversed-range field `9-3` is not the
ascending inclusive list [3..9] of the original claim; `_.range(9, 3+1)`
counts DOWN from 9 with step −1 and stops before 4, so `1.1.1.9-3` expands
to five descending addresses `1.1.1.9 … 1.1.1.5` instead of the seven
ascending ones the original claim predicts. -/
theorem claim_C7_counterexample :
    processToken (("1.1.1.9-3").data)
      = [("1.1.1.9").data, ("1.1.1.8").data, ("1.1.1.7").data,
         ("1.1.1.6").data, ("1.1.1.5").data] := by
  decide

theorem claim_C7_witness :
    processToken (specHyphenTok (.rng 1 2) (.bare 3) (.bare 4) (.rng 5 6))
        = specHyphenExpand (.rng 1 2) (.bare 3) (.bare 4) (.rng 5 6) ∧
    specHyphenExpand (.rng 1 2) (.bare 3) (.bare 4) (.rng 5 6)
        = [("1.3.4.5").data, ("1.3.4.6").data,
           ("2.3.4.5").data, ("2.3.4.6").data] :=
  ⟨claim_C7 (.rng 1 2) (.bare 3) (.bare 4) (.rng 5 6)
      (by decide) (by decide) (by decide) (by decide) (by decide),
   by decide⟩

/-- Claim C8, confirmed: a host is included exactly when its address occurs
anywhere in the expanded target list AND at least one of its three port
categories is non-empty; the dataset fold counts exactly the included hosts
and appends exactly one block per included host, so a targeted host with no
recorded ports produces no output and does not increment the counter. -/
theorem claim_C8 (ps : Bool) (tl : List Str) (data : List HostRecord) :
    (∀ m : HostRecord, includedB tl m = true ↔ m.IP ∈ tl ∧
      ¬(m.PortsOpen = [] ∧ m.PortsClosed = [] ∧ m.PortsFiltered = [])) ∧
    data.foldl (scanStep ps tl) (0, headerStr)
      = ((data.filter (includedB tl)).length,
         headerStr ++ (data.filter (includedB tl)).flatMap (hostBlock ps)) := by
  refine ⟨fun m => includedB_iff tl m, ?_⟩
  rw [scanFold]
  simp

/-- Claim C9, confirmed: the report is the header, the blocks of the
included hosts, then exactly one trailer whose requested-address count is
the LENGTH of the expanded address list (duplicates and dataset-absent
addresses each counted), whose host-up count is the number of included
hosts, and whose elapsed time is the fixed literal `26.18 seconds`. -/
theorem claim_C9 (data : List HostRecord) (cmd : Str) :
    createPortScanResults data cmd =
      headerStr ++
        (data.filter (includedB (ListIPAddresses cmd))).flatMap
          (hostBlock (pingScanB cmd)) ++
        (("Nmap done: ").data ++ natToStr (ListIPAddresses cmd).length ++
         (" IP addresses (").data ++
         natToStr ((data.filter (includedB (ListIPAddresses cmd))).length) ++
         (" host up) scanned in 26.18 seconds").data ++ CRLF) := by
  rw [createPortScanResults_eq]
  rfl

/-- Claim C10, confirmed: the parsing loop terminates on every input.  Any
fuel beyond the command length computes the same list (the loop reaches the
no-match state within `length` iterations), because each iteration's match
is a non-empty token whose removal and trimming strictly shrink the working
string — even when the matched text also occurs earlier in the command. -/
theorem claim_C10 (cmd : Str) :
    (∀ f, cmd.length < f → listIPLoop f cmd [] = ListIPAddresses cmd) ∧
    (∀ tok, jsMatchTail cmd = some tok →
      tok ≠ [] ∧ (jsTrim (replaceFirst cmd tok)).length < cmd.length) := by
  constructor
  · intro f hf
    exact listIPLoop_eq_ListIPAddresses hf
  · intro tok h
    have hacc := (jsMatchTail_some h).2
    have hne : tok ≠ [] := by
      intro he
      rw [he, anyMatch_nil_false] at hacc
      exact Bool.noConfusion hacc
    exact ⟨hne, loop_shrink h⟩

theorem claim_C10_witness :
    listIPLoop 20 (("nmap 1.2.3.4").data) []
        = ListIPAddresses (("nmap 1.2.3.4").data) ∧
    ((("1.2.3.4").data ≠ [] ∧
      (jsTrim (replaceFirst (("nmap 1.2.3.4").data) (("1.2.3.4").data))).length
        < (("nmap 1.2.3.4").data).length)) :=
  ⟨(claim_C10 (("nmap 1.2.3.4").data)).1 20 (by decide),
   (claim_C10 (("nmap 1.2.3.4").data)).2 (("1.2.3.4").data) (by decide)⟩
